import Mathlib

/-!
Verification of the CSP solver in `Problem Set 2/CSP_solver.py`.

The solver is embedded shallowly: Python sets become `Finset`, Python dicts
become association lists (for the mutable snapshot / assignment dictionaries)
or total functions (for the per-problem domain store), and the recursive
`backtrack` closure becomes a fuel-indexed recursion (the fuel passed by
`solve` strictly dominates the recursion depth, which decreases with the
snapshot size at every recursive call).

The `CSP` module (classes `Problem`, `UnaryConstraint`, `BinaryConstraint`,
the `is_complete` and `is_satisfied` methods) is imported by the solver but
is not part of the repository sources; those pieces are modelled from the
specification and marked as such in their doc comments.
-/

namespace CSPSolver

/-- Domain values.  The repository always uses Python integers for CSP
values (they must support equality and a total order); modelled as `Nat`. -/
abbrev Val := Nat

/-- Variable identifiers: Python strings. -/
abbrev Var := String

/-! ### Python dictionaries as association lists -/

/-- Lookup in a Python dict modelled as an association list
(the well-formed dicts built by the solver never hold a duplicate key,
so taking the first binding is exact). -/
def lookupD {β : Type} : List (Var × β) → Var → Option β
  | [], _ => none
  | (y, b) :: rest, x => if x = y then some b else lookupD rest x

/-- Python dict update `d[x] = b`: replace the binding if the key is
present, append a fresh binding otherwise. -/
def setD {β : Type} : List (Var × β) → Var → β → List (Var × β)
  | [], x, b => [(x, b)]
  | (y, c) :: rest, x, b => if x = y then (y, b) :: rest else (y, c) :: setD rest x b

/-- The dict comprehension `{k: v for k, v in d.items() if k != x}`. -/
def eraseD {β : Type} (d : List (Var × β)) (x : Var) : List (Var × β) :=
  d.filter (fun e => decide (e.1 ≠ x))

/-- The key list of a dict. -/
def keysD {β : Type} (d : List (Var × β)) : List Var :=
  d.map Prod.fst

/-! ### Data model -/

/-- Modelled from the spec (§3): a unary constraint is a pair of a variable
and a predicate `value → bool`.  The class itself lives in the `CSP` module,
which is not among the repository sources. -/
structure UnaryConstraint where
  var : Var
  condition : Val → Bool

/-- Modelled from the spec (§3): a binary constraint is
`(variable_a, variable_b, predicate : (value_a, value_b) → bool)`; the
predicate must be evaluated with the correct ordering of its two variable
slots.  The class itself lives in the missing `CSP` module. -/
structure BinaryConstraint where
  va : Var
  vb : Var
  condition : Val → Val → Bool

/-- A constraint is either unary or binary (spec §3); the solver
distinguishes them by the arity of `constraint.variables`. -/
inductive Constraint where
  | unary : UnaryConstraint → Constraint
  | binary : BinaryConstraint → Constraint

/-- Modelled from the spec (§6): a problem exposes an ordered sequence of
declared variables, a domain store, and a constraint list.  The domain
store is a Python dict keyed by the declared variables; it is modelled as a
total function (the solver only ever reads domains of declared variables).
The source field name `variables` is a reserved word in Lean; it is
shortened to `vars`. -/
structure Problem where
  vars : List Var
  domains : Var → Finset Val
  constraints : List Constraint

/-- A (partial) assignment: a Python dict from variable to value. -/
abbrev Assignment := List (Var × Val)

/-- The per-branch snapshot of the unassigned variables' domains:
a Python dict from variable to a set of values. -/
abbrev Snapshot := List (Var × Finset Val)

/-- Modelled from the spec (§3): `BinaryConstraint.is_satisfied` of the
missing `CSP` module reads the value of each of its two variable slots from
the assignment and applies the predicate with the slots in the correct
order; a constraint whose variables are not all assigned is not violated.
The solver only ever calls it with both slots present. -/
def BinaryConstraint.isSatisfied (c : BinaryConstraint) (a : Assignment) : Bool :=
  match lookupD a c.va, lookupD a c.vb with
  | some x, some y => c.condition x y
  | _, _ => true

/-- Modelled from the spec (§6): `Problem.is_complete` of the missing `CSP`
module is the completeness predicate on assignments — every declared
variable carries a value. -/
def is_complete (p : Problem) (a : Assignment) : Bool :=
  p.vars.all (fun v => (lookupD a v).isSome)

/-! ### `one_consistency` (CSP_solver.py lines 9–22) -/

/-- The loop body of `one_consistency`: walks the constraint list, keeping
non-unary constraints, and for each unary constraint replaces the
variable's domain by the values satisfying its predicate, recording
unsolvability when the new domain is empty. -/
def ocList : List Constraint → (Var → Finset Val) → Bool →
    List Constraint × (Var → Finset Val) × Bool
  | [], doms, solvable => ([], doms, solvable)
  | Constraint.binary c :: rest, doms, solvable =>
    let r := ocList rest doms solvable
    (Constraint.binary c :: r.1, r.2)
  | Constraint.unary c :: rest, doms, solvable =>
    let nd := (doms c.var).filter (fun v => c.condition v = true)
    ocList rest (fun w => if w = c.var then nd else doms w)
      (if nd = ∅ then false else solvable)

/-- `one_consistency(problem)`: returns the boolean result together with
the mutated problem (filtered domains, unary constraints dropped). -/
def one_consistency (p : Problem) : Bool × Problem :=
  let r := ocList p.constraints p.domains true
  (r.2.2, { p with domains := r.2.1, constraints := r.1 })

/-! ### `minimum_remaining_values` (CSP_solver.py lines 29–31) -/

/-- `enumerate(problem.variables)`. -/
def enumFromD (i : Nat) : List Var → List (Nat × Var)
  | [] => []
  | v :: vs => (i, v) :: enumFromD (i + 1) vs

/-- The generator feeding Python's `min`: one tuple
`(len(domains[variable]), index, variable)` per declared variable that is a
key of the snapshot. -/
def mrvCandidates (p : Problem) (doms : Snapshot) : List (Nat × Nat × Var) :=
  ((enumFromD 0 p.vars).filter (fun e => (lookupD doms e.2).isSome)).map
    (fun e => (((lookupD doms e.2).getD ∅).card, e.1, e.2))

/-- Python's `min` over the candidate tuples: lexicographic, keeping the
earlier tuple on ties (the index component makes the tuples distinct, so
the trailing variable component is never compared). -/
def mrvPick : (Nat × Nat × Var) → List (Nat × Nat × Var) → (Nat × Nat × Var)
  | best, [] => best
  | best, c :: cs =>
    mrvPick (if c.1 < best.1 ∨ (c.1 = best.1 ∧ c.2.1 < best.2.1) then c else best) cs

/-- `minimum_remaining_values(problem, domains)`.  On an empty candidate
list Python's `min` raises; the solver never reaches that case, and the
model returns the empty identifier there. -/
def minimum_remaining_values (p : Problem) (doms : Snapshot) : Var :=
  match mrvCandidates p doms with
  | [] => ""
  | c :: cs => (mrvPick c cs).2.2

/-! ### `forward_checking` (CSP_solver.py lines 45–102) -/

/-- `constraint.variables[0] if constraint.variables[1] == assigned_variable
else constraint.variables[1]`: the other endpoint of a binary constraint. -/
def neighborOf (c : BinaryConstraint) (x : Var) : Var :=
  if c.vb = x then c.va else c.vb

/-- The hypothetical two-entry assignment that `forward_checking` and
`least_restraining_values` build and feed to `is_satisfied`:
`{assigned_variable: assigned_value, other_variable: other_value}`. -/
def fcEval (c : BinaryConstraint) (x : Var) (xv : Val) (w : Var) (wv : Val) : Bool :=
  c.isSatisfied (setD (setD [] x xv) w wv)

/-- The loop of `forward_checking`: walks the constraint list, skipping
constraints that are not binary, do not involve the assigned variable, or
whose other endpoint is not a key of the snapshot; otherwise replaces the
neighbor's domain by the values consistent with the new assignment and
fails as soon as a neighbor's domain becomes empty.  Returns the boolean
result together with the (in Python: in-place mutated) snapshot. -/
def fcList (x : Var) (xv : Val) : List Constraint → Snapshot → Bool × Snapshot
  | [], doms => (true, doms)
  | Constraint.unary _ :: rest, doms => fcList x xv rest doms
  | Constraint.binary c :: rest, doms =>
    if x ≠ c.va ∧ x ≠ c.vb then fcList x xv rest doms
    else
      match lookupD doms (neighborOf c x) with
      | none => fcList x xv rest doms
      | some od =>
        let nd := od.filter (fun wv => fcEval c x xv (neighborOf c x) wv = true)
        let doms2 := setD doms (neighborOf c x) nd
        if nd = ∅ then (false, doms2) else fcList x xv rest doms2

/-- `forward_checking(problem, assigned_variable, assigned_value, domains)`. -/
def forward_checking (p : Problem) (x : Var) (xv : Val) (doms : Snapshot) :
    Bool × Snapshot :=
  fcList x xv p.constraints doms

/-! ### `least_restraining_values` (CSP_solver.py lines 114–159) -/

/-- The contribution of one constraint to a candidate value's restraint
count: the number of values that would be pruned from the neighbor's
domain, zero for constraints the inner loop skips. -/
def restraintOfConstraint (x : Var) (xv : Val) (doms : Snapshot) :
    Constraint → Nat
  | Constraint.unary _ => 0
  | Constraint.binary c =>
    if x ≠ c.va ∧ x ≠ c.vb then 0
    else
      match lookupD doms (neighborOf c x) with
      | none => 0
      | some od => (od.filter (fun wv => fcEval c x xv (neighborOf c x) wv = false)).card

/-- The restraint score of one candidate value: pruned neighbor values
summed over all constraints. -/
def restraintScore (p : Problem) (x : Var) (doms : Snapshot) (xv : Val) : Nat :=
  (p.constraints.map (restraintOfConstraint x xv doms)).sum

/-- The sort key order of `scored_values.sort(key=lambda x: (x[0], x[1]))`:
lexicographic on (score, value). -/
def lexLe (a b : Nat × Val) : Prop :=
  a.1 < b.1 ∨ (a.1 = b.1 ∧ a.2 ≤ b.2)

instance : DecidableRel lexLe := fun a b => by
  unfold lexLe; infer_instance

instance : IsTotal (Nat × Val) lexLe :=
  ⟨fun a b => by
    unfold lexLe
    rcases Nat.lt_trichotomy a.1 b.1 with h | h | h
    · exact Or.inl (Or.inl h)
    · rcases Nat.le_total a.2 b.2 with h2 | h2
      · exact Or.inl (Or.inr ⟨h, h2⟩)
      · exact Or.inr (Or.inr ⟨h.symm, h2⟩)
    · exact Or.inr (Or.inl h)⟩

instance : IsTrans (Nat × Val) lexLe :=
  ⟨fun a b c hab hbc => by
    unfold lexLe at *
    rcases hab with h1 | ⟨h1, h1v⟩ <;> rcases hbc with h2 | ⟨h2, h2v⟩
    · exact Or.inl (h1.trans h2)
    · exact Or.inl (h2 ▸ h1)
    · exact Or.inl (h1 ▸ h2)
    · exact Or.inr ⟨h1.trans h2, h1v.trans h2v⟩⟩

/-- An enumeration of a finite set of values in ascending order. -/
def finsetAsc (s : Finset Val) : List Val :=
  (List.range (s.sup id + 1)).filter (fun v => decide (v ∈ s))

/-- `least_restraining_values(problem, variable_to_assign, domains)`:
scores every value of the variable's snapshot domain, sorts by
(score, value) and drops the scores.  Python iterates the set in an
unspecified order; the scored values carry distinct sort keys, so the
sorted output is the same for every enumeration order, and the model
enumerates the set in ascending value order. -/
def least_restraining_values (p : Problem) (x : Var) (doms : Snapshot) : List Val :=
  let possible := finsetAsc ((lookupD doms x).getD ∅)
  let scored := possible.map (fun v => (restraintScore p x doms v, v))
  (scored.insertionSort lexLe).map Prod.snd

/-! ### `solve` and the nested `backtrack` (CSP_solver.py lines 170–223) -/

/-- The value loop inside `backtrack`: for each value in LRV order, build
the extended assignment and the filtered snapshot copy, run forward
checking on it, recurse when it succeeds, and propagate the first
non-`None` recursive result.  The recursive call is abstracted as `bt`.
The Python code stores the forward-checking result in a local before
branching on it; the pure call is written out twice here instead. -/
def tryValues (bt : Assignment → Snapshot → Option Assignment)
    (fc : Var → Val → Snapshot → Bool × Snapshot)
    (assignment : Assignment) (current : Snapshot) (x : Var) :
    List Val → Option Assignment
  | [] => none
  | value :: rest =>
    if (fc x value (eraseD current x)).1 then
      match bt (setD assignment x value) (fc x value (eraseD current x)).2 with
      | some res => some res
      | none => tryValues bt fc assignment current x rest
    else tryValues bt fc assignment current x rest

/-- The nested `backtrack(assignment, current_domains)` of `solve`,
with an explicit fuel for the recursion depth.  Every recursive call
strictly shrinks the snapshot, so the fuel passed by `solve` (number of
declared variables plus one) is never exhausted.  Python's local
`variable` is the written-out MRV call. -/
def backtrack (p : Problem) : Nat → Assignment → Snapshot → Option Assignment
  | 0, _, _ => none
  | Nat.succ fuel, assignment, current =>
    if is_complete p assignment then some assignment
    else
      tryValues (backtrack p fuel) (forward_checking p) assignment current
        (minimum_remaining_values p current)
        (least_restraining_values p (minimum_remaining_values p current) current)

/-- `solve(problem)`: 1-consistency first (returning `None` when it fails),
then backtracking from the empty assignment over the post-preprocessing
snapshot of all declared variables. -/
def solve (p : Problem) : Option Assignment :=
  if (one_consistency p).1 = true then
    let q := (one_consistency p).2
    backtrack q (q.vars.length + 1) [] (q.vars.map (fun v => (v, q.domains v)))
  else none

/-! ### Instrumented variant counting `is_complete` calls

The spec's node-count contract is about how often `problem.is_complete` is
evaluated; the instrumented copy of the engine returns that count next to
the result. -/

/-- The value loop of the instrumented engine, accumulating the
`is_complete` call counts of the recursive calls. -/
def tryValuesCount (bt : Assignment → Snapshot → Option Assignment × Nat)
    (fc : Var → Val → Snapshot → Bool × Snapshot)
    (assignment : Assignment) (current : Snapshot) (x : Var) :
    List Val → Option Assignment × Nat
  | [] => (none, 0)
  | value :: rest =>
    let fr := fc x value (eraseD current x)
    if fr.1 then
      let r := bt (setD assignment x value) fr.2
      match r.1 with
      | some res => (some res, r.2)
      | none =>
        let rr := tryValuesCount bt fc assignment current x rest
        (rr.1, r.2 + rr.2)
    else tryValuesCount bt fc assignment current x rest

/-- Instrumented `backtrack`: identical control flow, plus the number of
`is_complete` evaluations performed (one per call entered). -/
def backtrackCount (p : Problem) : Nat → Assignment → Snapshot →
    Option Assignment × Nat
  | 0, _, _ => (none, 0)
  | Nat.succ fuel, assignment, current =>
    if is_complete p assignment then (some assignment, 1)
    else
      let x := minimum_remaining_values p current
      let r := tryValuesCount (backtrackCount p fuel) (forward_checking p)
        assignment current x (least_restraining_values p x current)
      (r.1, 1 + r.2)

/-- Instrumented `solve`: result plus the total `is_complete` call count. -/
def solveCount (p : Problem) : Option Assignment × Nat :=
  if (one_consistency p).1 = true then
    let q := (one_consistency p).2
    backtrackCount q (q.vars.length + 1) [] (q.vars.map (fun v => (v, q.domains v)))
  else (none, 0)

/-! ### Vocabulary for the claim statements -/

/-- A constraint is unary. -/
def isUnary : Constraint → Bool
  | Constraint.unary _ => true
  | Constraint.binary _ => false

/-- Well-formed problem (spec §3 and §7): declared variables are unique,
every constraint refers only to declared variables, and a binary
constraint joins two distinct variables. -/
def WellFormed (p : Problem) : Prop :=
  p.vars.Nodup ∧ ∀ c ∈ p.constraints,
    (∀ u, c = Constraint.unary u → u.var ∈ p.vars) ∧
    (∀ b, c = Constraint.binary b → b.va ∈ p.vars ∧ b.vb ∈ p.vars ∧ b.va ≠ b.vb)

/-- A constraint evaluates to true under an assignment: its variables all
carry values and the predicate holds on them, slots in order. -/
def satisfiedBy (a : Assignment) : Constraint → Prop
  | Constraint.unary u => ∃ v, lookupD a u.var = some v ∧ u.condition v = true
  | Constraint.binary b => ∃ x y, lookupD a b.va = some x ∧ lookupD a b.vb = some y ∧
      b.condition x y = true

/-- The conjunction of all unary predicates covering a variable, over a
constraint list. -/
def unaryCondsB (cs : List Constraint) (v : Var) (x : Val) : Bool :=
  cs.all (fun c => match c with
    | Constraint.unary u => if u.var = v then u.condition x else true
    | Constraint.binary _ => true)

/-- No unary constraint of the list covers the variable. -/
def noUnaryOn (cs : List Constraint) (v : Var) : Bool :=
  cs.all (fun c => match c with
    | Constraint.unary u => decide (u.var ≠ v)
    | Constraint.binary _ => true)

/-- The claim's wording of the forward-checking test: the constraint
evaluated with `assigned_variable = assigned_value` and the neighbor at the
candidate value, slots in their declared order. -/
def evalWith (b : BinaryConstraint) (x : Var) (xv : Val) (wv : Val) : Bool :=
  if b.va = x then b.condition xv wv else b.condition wv xv

/-- `w` is a neighbor of `x`: some binary constraint of the list touches
`x` and has `w` as its other endpoint. -/
def isNeighbor : List Constraint → Var → Var → Bool
  | [], _, _ => false
  | Constraint.unary _ :: rest, x, w => isNeighbor rest x w
  | Constraint.binary b :: rest, x, w =>
    decide ((x = b.va ∨ x = b.vb) ∧ neighborOf b x = w) || isNeighbor rest x w

/-- A value survives forward checking for neighbor `w`, in the claim's
wording: every binary constraint of the list joining `x` to `w` accepts it
under `evalWith`. -/
def keepVal : List Constraint → Var → Val → Var → Val → Bool
  | [], _, _, _, _ => true
  | Constraint.unary _ :: rest, x, xv, w, wv => keepVal rest x xv w wv
  | Constraint.binary b :: rest, x, xv, w, wv =>
    (if (x = b.va ∨ x = b.vb) ∧ neighborOf b x = w then evalWith b x xv wv
      else true) && keepVal rest x xv w wv

/-- The position of the first occurrence of a variable in the declaration
list (the length of the list when absent). -/
def idxOfD (w : Var) : List Var → Nat
  | [] => 0
  | v :: vs => if v = w then 0 else idxOfD w vs + 1

/-- The strict lexicographic order Python's `min` uses on the candidate
tuples (the third component never decides, its index being unique). -/
def ltK (a b : Nat × Nat × Var) : Prop :=
  a.1 < b.1 ∨ (a.1 = b.1 ∧ a.2.1 < b.2.1)

/-- A value survives the forward-checking pruning of neighbor `w`, in the
evaluation form the code uses: every binary constraint of the list that is
incident to `x` and has `w` as its other endpoint accepts the hypothetical
two-entry assignment. -/
def pruneCondB : List Constraint → Var → Val → Var → Val → Bool
  | [], _, _, _, _ => true
  | Constraint.unary _ :: rest, x, xv, w, wv => pruneCondB rest x xv w wv
  | Constraint.binary b :: rest, x, xv, w, wv =>
    (if (x = b.va ∨ x = b.vb) ∧ neighborOf b x = w then fcEval b x xv w wv
      else true) && pruneCondB rest x xv w wv

/-- The snapshot `solve` hands to the root `backtrack` call. -/
def initSnapshot (q : Problem) : Snapshot :=
  q.vars.map (fun v => (v, q.domains v))

/-- The pairs (assignment, snapshot) of every `backtrack` invocation that
`solve` can reach on a problem: the root call after successful
preprocessing, and, from a reachable non-complete call, the recursive call
for any LRV-ordered value whose forward check succeeds.  Every invocation
the engine actually performs is covered (the relation does not model the
cut after the first success, so it may also cover skipped siblings). -/
inductive Reaches (p : Problem) : Assignment → Snapshot → Prop where
  | root : (one_consistency p).1 = true →
      Reaches p [] (initSnapshot (one_consistency p).2)
  | step : ∀ a s value s2, Reaches p a s →
      is_complete (one_consistency p).2 a = false →
      value ∈ least_restraining_values (one_consistency p).2
        (minimum_remaining_values (one_consistency p).2 s) s →
      forward_checking (one_consistency p).2
        (minimum_remaining_values (one_consistency p).2 s) value
        (eraseD s (minimum_remaining_values (one_consistency p).2 s)) = (true, s2) →
      Reaches p (setD a (minimum_remaining_values (one_consistency p).2 s) value) s2

/-- The inductive invariant of the backtracking engine, for the original
problem `p` and the post-preprocessing problem `q`: assignment keys and
snapshot keys are disjoint, lie in the declared variables, and cover them;
assigned values and snapshot domains live inside `q`'s (already
1-consistent) domains; every binary constraint of `q` whose endpoints are
both assigned holds, and for a constraint with one endpoint assigned, every
value still in the other endpoint's snapshot domain is compatible with the
assigned value. -/
structure Inv (p q : Problem) (a : Assignment) (s : Snapshot) : Prop where
  aNodup : (keysD a).Nodup
  sNodup : (keysD s).Nodup
  cover : ∀ v, v ∈ p.vars →
    (lookupD a v).isSome = true ∨ (lookupD s v).isSome = true
  aSub : ∀ v, (lookupD a v).isSome = true → v ∈ p.vars
  sSub : ∀ v, (lookupD s v).isSome = true → v ∈ p.vars
  disj : ∀ v, (lookupD a v).isSome = true → (lookupD s v).isSome = true → False
  aDom : ∀ v val, lookupD a v = some val → val ∈ q.domains v
  sDom : ∀ v d, lookupD s v = some d → d ⊆ q.domains v
  bBoth : ∀ b, Constraint.binary b ∈ q.constraints → ∀ xv yv,
    lookupD a b.va = some xv → lookupD a b.vb = some yv →
    b.condition xv yv = true
  bFrontA : ∀ b, Constraint.binary b ∈ q.constraints → ∀ xv d,
    lookupD a b.va = some xv → lookupD s b.vb = some d →
    ∀ y ∈ d, b.condition xv y = true
  bFrontB : ∀ b, Constraint.binary b ∈ q.constraints → ∀ yv d,
    lookupD a b.vb = some yv → lookupD s b.va = some d →
    ∀ z ∈ d, b.condition z yv = true

/-! ### Concrete problems for the end-to-end scenario and the witnesses -/

/-- Scenario 1 of the spec: variables `X, Y`, domains `{0, 1}`, one binary
constraint `X != Y`. -/
def scenario1 : Problem where
  vars := ["X", "Y"]
  domains := fun _ => {0, 1}
  constraints := [Constraint.binary ⟨"X", "Y", fun a b => decide (a ≠ b)⟩]

/-- A problem whose single unary constraint is unsatisfiable over the full
domain of its variable. -/
def failingUnary : Problem where
  vars := ["A"]
  domains := fun _ => {0, 1}
  constraints := [Constraint.unary ⟨"A", fun _ => false⟩]

/-- Variable `A` has an empty domain and no unary constraint, while the
unary constraint on `B` empties `B`'s domain. -/
def emptyPlusFailing : Problem where
  vars := ["A", "B"]
  domains := fun v => if v = "B" then {0} else ∅
  constraints := [Constraint.unary ⟨"B", fun _ => false⟩]

/-- Variable `A` has an empty domain and no unary constraint; the unary
constraint on `B` keeps `B`'s domain non-empty. -/
def emptyPlusBenign : Problem where
  vars := ["A", "B"]
  domains := fun v => if v = "B" then {0, 1} else ∅
  constraints := [Constraint.unary ⟨"B", fun v => decide (v = 0)⟩]

/-! ### Dictionary lemmas -/

theorem lookupD_setD_self {β : Type} (d : List (Var × β)) (x : Var) (b : β) :
    lookupD (setD d x b) x = some b := by
  induction d with
  | nil => simp [setD, lookupD]
  | cons e rest ih =>
    obtain ⟨y, c⟩ := e
    by_cases h : x = y
    · simp [setD, lookupD, h]
    · simp [setD, lookupD, h, ih]

theorem lookupD_setD_ne {β : Type} (d : List (Var × β)) (x z : Var) (b : β)
    (h : z ≠ x) : lookupD (setD d x b) z = lookupD d z := by
  induction d with
  | nil => simp [setD, lookupD, h]
  | cons e rest ih =>
    obtain ⟨y, c⟩ := e
    by_cases hxy : x = y
    · subst hxy
      simp [setD, lookupD, h]
    · by_cases hzy : z = y
      · simp [setD, lookupD, hxy, hzy]
      · simp [setD, lookupD, hxy, hzy, ih]

theorem setD_of_lookup_none {β : Type} (d : List (Var × β)) (x : Var) (b : β)
    (h : lookupD d x = none) : setD d x b = d ++ [(x, b)] := by
  induction d with
  | nil => simp [setD]
  | cons e rest ih =>
    obtain ⟨y, c⟩ := e
    by_cases hxy : x = y
    · simp [lookupD, hxy] at h
    · simp [lookupD, hxy] at h
      simp [setD, hxy, ih h]

theorem keysD_setD_of_isSome {β : Type} (d : List (Var × β)) (x : Var) (b : β)
    (h : (lookupD d x).isSome) : keysD (setD d x b) = keysD d := by
  induction d with
  | nil => simp [lookupD] at h
  | cons e rest ih =>
    obtain ⟨y, c⟩ := e
    by_cases hxy : x = y
    · simp [setD, keysD, hxy]
    · simp [lookupD, hxy] at h
      simp [setD, keysD, hxy] at ih ⊢
      exact ih h

theorem eraseD_cons_self {β : Type} (y : Var) (c : β) (rest : List (Var × β)) :
    eraseD ((y, c) :: rest) y = eraseD rest y := by
  simp [eraseD, List.filter_cons]

theorem eraseD_cons_ne {β : Type} {y x : Var} (h : y ≠ x) (c : β)
    (rest : List (Var × β)) :
    eraseD ((y, c) :: rest) x = (y, c) :: eraseD rest x := by
  simp [eraseD, List.filter_cons, h]

theorem lookupD_eraseD {β : Type} (d : List (Var × β)) (x z : Var) :
    lookupD (eraseD d x) z = if z = x then none else lookupD d z := by
  induction d with
  | nil => simp [eraseD, lookupD]
  | cons e rest ih =>
    obtain ⟨y, c⟩ := e
    by_cases hyx : y = x
    · subst hyx
      rw [eraseD_cons_self, ih]
      by_cases hzx : z = y
      · simp [hzx]
      · simp [hzx, lookupD]
    · rw [eraseD_cons_ne hyx]
      by_cases hzy : z = y
      · subst hzy
        have hzx : z ≠ x := hyx
        simp [lookupD, hzx]
      · simp [lookupD, hzy, ih]

theorem keysD_eraseD {β : Type} (d : List (Var × β)) (x : Var) :
    keysD (eraseD d x) = (keysD d).filter (fun v => decide (v ≠ x)) := by
  induction d with
  | nil => simp [eraseD, keysD]
  | cons e rest ih =>
    obtain ⟨y, c⟩ := e
    by_cases hyx : y = x <;> simp [eraseD, keysD, hyx, List.filter] at ih ⊢ <;> exact ih

theorem lookupD_isSome_iff {β : Type} (d : List (Var × β)) (x : Var) :
    (lookupD d x).isSome = true ↔ x ∈ keysD d := by
  induction d with
  | nil => simp [lookupD, keysD]
  | cons e rest ih =>
    obtain ⟨y, c⟩ := e
    by_cases hxy : x = y <;> simp [lookupD, keysD, hxy, ih]

theorem lookupD_map_fun (l : List Var) (f : Var → Finset Val) (w : Var) :
    lookupD (l.map (fun v => (v, f v))) w =
      if w ∈ l then some (f w) else none := by
  induction l with
  | nil => simp [lookupD]
  | cons v vs ih =>
    by_cases hwv : w = v
    · subst hwv
      simp [lookupD]
    · simp [lookupD, hwv, ih]

/-! ### `one_consistency`: characterization -/

theorem ocList_constraints (L : List Constraint) (doms : Var → Finset Val) (b : Bool) :
    (ocList L doms b).1 = L.filter (fun c => !isUnary c) := by
  induction L generalizing doms b with
  | nil => simp [ocList]
  | cons c rest ih =>
    cases c with
    | unary u => simpa [ocList, isUnary, List.filter] using ih _ _
    | binary bc => simpa [ocList, isUnary, List.filter] using ih doms b

theorem ocList_domains (L : List Constraint) (doms : Var → Finset Val) (b : Bool)
    (v : Var) :
    (ocList L doms b).2.1 v = (doms v).filter (fun x => unaryCondsB L v x = true) := by
  induction L generalizing doms b with
  | nil =>
    simp [ocList, unaryCondsB]
  | cons c rest ih =>
    cases c with
    | binary bc =>
      rw [show (ocList (Constraint.binary bc :: rest) doms b).2.1 v
            = (ocList rest doms b).2.1 v from rfl, ih]
      apply Finset.filter_congr
      intro x _
      simp [unaryCondsB]
    | unary u =>
      rw [show (ocList (Constraint.unary u :: rest) doms b).2.1 v
            = (ocList rest (fun w => if w = u.var then
                  (doms u.var).filter (fun y => u.condition y = true) else doms w)
                (if (doms u.var).filter (fun y => u.condition y = true) = ∅
                  then false else b)).2.1 v from rfl, ih]
      by_cases hv : v = u.var
      · subst hv
        rw [if_pos rfl, Finset.filter_filter]
        apply Finset.filter_congr
        intro x _
        simp [unaryCondsB]
      · rw [if_neg hv]
        apply Finset.filter_congr
        intro x _
        have : u.var ≠ v := fun h => hv h.symm
        simp [unaryCondsB, this]

theorem unaryCondsB_of_noUnary (cs : List Constraint) (v : Var)
    (h : ∀ u, Constraint.unary u ∈ cs → u.var ≠ v) (x : Val) :
    unaryCondsB cs v x = true := by
  rw [unaryCondsB, List.all_eq_true]
  intro c hc
  cases c with
  | unary u => simp [h u hc]
  | binary bc => simp

theorem ocList_solvable_iff (L : List Constraint) (doms : Var → Finset Val) (b : Bool) :
    (ocList L doms b).2.2 = true ↔
      (b = true ∧ ∀ u, Constraint.unary u ∈ L → (ocList L doms b).2.1 u.var ≠ ∅) := by
  induction L generalizing doms b with
  | nil => simp [ocList]
  | cons c rest ih =>
    cases c with
    | binary bc =>
      rw [show ocList (Constraint.binary bc :: rest) doms b
            = (Constraint.binary bc :: (ocList rest doms b).1,
               (ocList rest doms b).2) from rfl]
      simp only [List.mem_cons]
      constructor
      · intro h
        have := (ih doms b).mp h
        exact ⟨this.1, fun u hu => by
          rcases hu with hu | hu
          · exact absurd hu (by simp)
          · exact this.2 u hu⟩
      · intro h
        exact (ih doms b).mpr ⟨h.1, fun u hu => h.2 u (Or.inr hu)⟩
    | unary u =>
      set nd := (doms u.var).filter (fun y => u.condition y = true) with hnd
      set doms2 := fun w => if w = u.var then nd else doms w with hdoms2
      set b2 := if nd = ∅ then false else b with hb2
      have hstep : ocList (Constraint.unary u :: rest) doms b = ocList rest doms2 b2 := rfl
      rw [hstep]
      constructor
      · intro h
        have hih := (ih doms2 b2).mp h
        have hb : b = true ∧ nd ≠ ∅ := by
          rcases Decidable.em (nd = ∅) with he | he
          · rw [hb2, if_pos he] at hih
            exact absurd hih.1 (by simp)
          · rw [hb2, if_neg he] at hih
            exact ⟨hih.1, he⟩
        refine ⟨hb.1, fun u2 hu2 => ?_⟩
        rw [List.mem_cons] at hu2
        rcases hu2 with hu2 | hu2
        · -- the head constraint itself
          have hu2v : u2 = u := by injection hu2
          subst hu2v
          by_cases hex : ∃ u3, Constraint.unary u3 ∈ rest ∧ u3.var = u2.var
          · obtain ⟨u3, hu3, hvar⟩ := hex
            have := hih.2 u3 hu3
            rw [hvar] at this
            exact this
          · rw [ocList_domains]
            rw [hdoms2]
            simp only [if_pos rfl]
            have hall : ∀ x, unaryCondsB rest u2.var x = true := by
              intro x
              apply unaryCondsB_of_noUnary
              intro u3 hu3 hvar
              exact hex ⟨u3, hu3, hvar⟩
            rw [Finset.filter_true_of_mem (fun x _ => hall x)]
            exact hb.2
        · exact hih.2 u2 hu2
      · rintro ⟨hb, hall⟩
        apply (ih doms2 b2).mpr
        have hnd : nd ≠ ∅ := by
          intro hempty
          have := hall u (List.mem_cons_self _ _)
          rw [ocList_domains] at this
          apply this
          rw [hdoms2]
          simp only [if_pos rfl]
          rw [hempty]
          exact Finset.filter_empty _
        refine ⟨?_, fun u2 hu2 => hall u2 (List.mem_cons_of_mem _ hu2)⟩
        rw [hb2, if_neg hnd]
        exact hb

/-- Shared helper: `one_consistency` returns `false` exactly when some
unary-constrained variable ends up with an empty domain.  Domains only
shrink while the unary constraints are applied, so a domain that is empty
at the moment a unary constraint is applied is exactly a final empty
domain of a unary-constrained variable. -/
theorem ocFalseIff (p : Problem) :
    (one_consistency p).1 = false ↔
      ∃ u, Constraint.unary u ∈ p.constraints ∧
        (one_consistency p).2.domains u.var = ∅ := by
  have h := ocList_solvable_iff p.constraints p.domains true
  have h1 : (one_consistency p).1 = (ocList p.constraints p.domains true).2.2 := rfl
  have h2 : ∀ v, (one_consistency p).2.domains v
      = (ocList p.constraints p.domains true).2.1 v := fun _ => rfl
  constructor
  · intro hf
    by_contra hnex
    push_neg at hnex
    have htrue : (ocList p.constraints p.domains true).2.2 = true :=
      h.mpr ⟨rfl, fun u hu => by rw [← h2]; exact hnex u hu⟩
    rw [h1, htrue] at hf
    cases hf
  · rintro ⟨u, hu, hempty⟩
    cases hb : (one_consistency p).1 with
    | false => rfl
    | true =>
      have := (h.mp (h1 ▸ hb)).2 u hu
      rw [← h2] at this
      exact absurd hempty this

/-- C6: after `one_consistency`, every domain equals the original domain
restricted to the values satisfying all unary constraints on that variable
(unchanged for variables with no unary constraint, where the conjunction is
vacuously true), the constraint list keeps exactly the non-unary
constraints in their original order, and the declared variables are
untouched — whatever boolean the function returns. -/
theorem one_consistency_postcondition (p : Problem) :
    (one_consistency p).2.constraints = p.constraints.filter (fun c => !isUnary c) ∧
    (∀ v, (one_consistency p).2.domains v =
      (p.domains v).filter (fun x => unaryCondsB p.constraints v x = true)) ∧
    (one_consistency p).2.vars = p.vars := by
  refine ⟨?_, fun v => ?_, rfl⟩
  · exact ocList_constraints p.constraints p.domains true
  · exact ocList_domains p.constraints p.domains true v

/-- C7: `one_consistency` returns `false` exactly when applying some unary
constraint leaves its variable's domain empty.  Since domains only shrink
during preprocessing, this happens for some intermediate application if
and only if some unary-constrained variable's final domain is empty, which
is how the right-hand side states it. -/
theorem one_consistency_false_iff (p : Problem) :
    (one_consistency p).1 = false ↔
      ∃ u, Constraint.unary u ∈ p.constraints ∧
        (one_consistency p).2.domains u.var = ∅ :=
  ocFalseIff p

/-- C10, counterexample: in `emptyPlusFailing`, variable `A` has an empty
domain and no unary constraint covers it, yet `one_consistency` does not
return `true` (the unary constraint on `B` empties `B`'s domain). -/
theorem one_consistency_emptiness_counterexample :
    ("A" ∈ emptyPlusFailing.vars ∧ emptyPlusFailing.domains "A" = ∅ ∧
      noUnaryOn emptyPlusFailing.constraints "A" = true) ∧
    ¬ (one_consistency emptyPlusFailing).1 = true := by
  constructor
  · exact ⟨by decide, by decide, by decide⟩
  · decide

/-- C10, amended: if some variable's domain is already empty before
preprocessing and no unary constraint covers that variable, and moreover
applying the unary constraints leaves every unary-constrained variable's
domain non-empty, then `one_consistency` still returns `true` — the
pre-existing emptiness of an uncovered variable is never detected. -/
theorem one_consistency_emptiness_amended (p : Problem) (v : Var)
    (hmem : v ∈ p.vars) (hempty : p.domains v = ∅)
    (hnou : noUnaryOn p.constraints v = true)
    (hok : ∀ u, Constraint.unary u ∈ p.constraints →
      (one_consistency p).2.domains u.var ≠ ∅) :
    (one_consistency p).1 = true := by
  cases hb : (one_consistency p).1 with
  | true => rfl
  | false =>
    obtain ⟨u, hu, humpty⟩ := (ocFalseIff p).mp hb
    exact absurd humpty (hok u hu)

/-- Witness for C10's amended theorem: in `emptyPlusBenign`, variable `A`
has an empty domain, is covered by no unary constraint, and the unary
constraint on `B` keeps `B` non-empty; preprocessing succeeds. -/
theorem one_consistency_emptiness_amended_witness :
    ("A" ∈ emptyPlusBenign.vars ∧ emptyPlusBenign.domains "A" = ∅ ∧
      noUnaryOn emptyPlusBenign.constraints "A" = true) ∧
    (one_consistency emptyPlusBenign).1 = true := by
  refine ⟨⟨by decide, by decide, by decide⟩, ?_⟩
  apply one_consistency_emptiness_amended emptyPlusBenign "A" (by decide) (by decide)
    (by decide)
  intro u hu
  rw [show emptyPlusBenign.constraints
      = [Constraint.unary ⟨"B", fun w => decide (w = 0)⟩] from rfl,
    List.mem_singleton] at hu
  injection hu with h
  subst h
  decide

/-- C3: whenever 1-consistency reports the problem unsolvable, `solve`
answers the `None` sentinel and the completeness predicate `is_complete`
is never evaluated — the instrumented engine's call counter is zero. -/
theorem solve_fails_without_completeness_check (p : Problem)
    (h : (one_consistency p).1 = false) :
    solve p = none ∧ (solveCount p).2 = 0 := by
  constructor
  · rw [solve, if_neg (by simp [h])]
  · rw [solveCount, if_neg (by simp [h])]

/-- Witness for C3 on `failingUnary`, whose unary constraint is
unsatisfiable over the whole domain of `A`. -/
theorem solve_fails_without_completeness_check_witness :
    (one_consistency failingUnary).1 = false ∧
      solve failingUnary = none ∧ (solveCount failingUnary).2 = 0 :=
  ⟨by decide, solve_fails_without_completeness_check failingUnary (by decide)⟩

/-- C9: on the two-variable problem `X, Y` with domains `{0, 1}` and the
single binary constraint `X != Y`, `solve` returns the assignment
`{X: 0, Y: 1}`. -/
theorem solve_scenario1_eq : solve scenario1 = some [("X", 0), ("Y", 1)] := by
  decide

/-! ### `minimum_remaining_values`: specification -/

theorem mem_enumFromD_idx (w : Var) (l : List Var) (hw : w ∈ l) (k : Nat) :
    (k + idxOfD w l, w) ∈ enumFromD k l := by
  induction l generalizing k with
  | nil => cases hw
  | cons v vs ih =>
    by_cases hv : v = w
    · subst hv
      simp [enumFromD, idxOfD]
    · have hw2 : w ∈ vs := by
        rcases List.mem_cons.mp hw with h | h
        · exact absurd h.symm hv
        · exact h
      have := ih hw2 (k + 1)
      rw [show k + idxOfD w (v :: vs) = (k + 1) + idxOfD w vs from by
        simp [idxOfD, hv]; omega]
      exact List.mem_cons_of_mem _ this

theorem idx_le_of_mem_enumFromD (i : Nat) (v : Var) (l : List Var) (k : Nat)
    (h : (i, v) ∈ enumFromD k l) : k + idxOfD v l ≤ i ∧ v ∈ l := by
  induction l generalizing k with
  | nil => cases h
  | cons w ws ih =>
    rcases List.mem_cons.mp h with h | h
    · injection h with hi hv
      subst hi; subst hv
      simp [idxOfD]
    · obtain ⟨hle, hmem⟩ := ih (k + 1) h
      by_cases hw : w = v
      · subst hw
        refine ⟨?_, List.mem_cons_self _ _⟩
        have h0 : idxOfD w (w :: ws) = 0 := by simp [idxOfD]
        rw [h0]
        omega
      · refine ⟨?_, List.mem_cons_of_mem _ hmem⟩
        have h0 : idxOfD v (w :: ws) = idxOfD v ws + 1 := by simp [idxOfD, hw]
        rw [h0]
        omega

theorem mrvPick_mem (best : Nat × Nat × Var) (cs : List (Nat × Nat × Var)) :
    mrvPick best cs ∈ best :: cs := by
  induction cs generalizing best with
  | nil => simp [mrvPick]
  | cons c cs ih =>
    rw [mrvPick]
    by_cases hc : c.1 < best.1 ∨ (c.1 = best.1 ∧ c.2.1 < best.2.1)
    · rw [if_pos hc]
      rcases List.mem_cons.mp (ih c) with h | h
      · rw [h]
        exact List.mem_cons_of_mem _ (List.mem_cons_self _ _)
      · exact List.mem_cons_of_mem _ (List.mem_cons_of_mem _ h)
    · rw [if_neg hc]
      rcases List.mem_cons.mp (ih best) with h | h
      · rw [h]
        exact List.mem_cons_self _ _
      · exact List.mem_cons_of_mem _ (List.mem_cons_of_mem _ h)

theorem mrvPick_min (best : Nat × Nat × Var) (cs : List (Nat × Nat × Var)) :
    ∀ e ∈ best :: cs, ¬ ltK e (mrvPick best cs) := by
  induction cs generalizing best with
  | nil =>
    intro e he
    rw [List.mem_singleton] at he
    subst he
    rw [mrvPick, ltK]
    omega
  | cons c cs ih =>
    intro e he
    rw [mrvPick]
    by_cases hc : c.1 < best.1 ∨ (c.1 = best.1 ∧ c.2.1 < best.2.1)
    · rw [if_pos hc]
      have hhead := ih c c (List.mem_cons_self _ _)
      rcases List.mem_cons.mp he with he1 | he2
      · rw [he1]
        intro habs
        rw [ltK] at habs hhead
        omega
      · rcases List.mem_cons.mp he2 with he3 | he4
        · rw [he3]
          exact ih c c (List.mem_cons_self _ _)
        · exact ih c e (List.mem_cons_of_mem _ he4)
    · rw [if_neg hc]
      have hhead := ih best best (List.mem_cons_self _ _)
      rcases List.mem_cons.mp he with he1 | he2
      · rw [he1]
        exact hhead
      · rcases List.mem_cons.mp he2 with he3 | he4
        · rw [he3]
          intro habs
          rw [ltK] at habs hhead
          omega
        · exact ih best e (List.mem_cons_of_mem _ he4)

theorem mem_mrvCandidates (p : Problem) (s : Snapshot) (e : Nat × Nat × Var)
    (he : e ∈ mrvCandidates p s) :
    ∃ d, lookupD s e.2.2 = some d ∧ e.1 = d.card ∧
      (e.2.1, e.2.2) ∈ enumFromD 0 p.vars := by
  rw [mrvCandidates] at he
  obtain ⟨a, ha, hfa⟩ := List.mem_map.mp he
  obtain ⟨i, v⟩ := a
  obtain ⟨ha1, ha2⟩ := List.mem_filter.mp ha
  simp only [decide_eq_true_eq] at ha2
  obtain ⟨d, hd⟩ := Option.isSome_iff_exists.mp ha2
  subst hfa
  exact ⟨d, by simpa using hd, by simp [hd], by simpa using ha1⟩

theorem mrvCandidates_complete (p : Problem) (s : Snapshot) (w : Var)
    (d : Finset Val) (hw : lookupD s w = some d) (hmem : w ∈ p.vars) :
    (d.card, idxOfD w p.vars, w) ∈ mrvCandidates p s := by
  rw [mrvCandidates]
  apply List.mem_map.mpr
  refine ⟨(idxOfD w p.vars, w), List.mem_filter.mpr ⟨?_, ?_⟩, ?_⟩
  · simpa using mem_enumFromD_idx w p.vars hmem 0
  · simp [hw]
  · simp [hw]

/-- C4: on a non-empty snapshot whose keys are declared variables, MRV
returns a key of the snapshot whose domain cardinality is minimal among
all snapshot keys, and on equal cardinality its variable is declared no
later than the other key, independently of the domain contents. -/
theorem minimum_remaining_values_spec (p : Problem) (s : Snapshot) (hne : s ≠ [])
    (hsub : ∀ w, (lookupD s w).isSome = true → w ∈ p.vars) :
    (lookupD s (minimum_remaining_values p s)).isSome = true ∧
    (∀ w dw dr, lookupD s w = some dw →
      lookupD s (minimum_remaining_values p s) = some dr →
      dr.card ≤ dw.card ∧
        (dr.card = dw.card →
          idxOfD (minimum_remaining_values p s) p.vars ≤ idxOfD w p.vars)) := by
  have hcs : mrvCandidates p s ≠ [] := by
    obtain ⟨e, rest, heq⟩ := List.exists_cons_of_ne_nil hne
    obtain ⟨w0, d0⟩ := e
    have hl : lookupD s w0 = some d0 := by rw [heq]; simp [lookupD]
    have hmem : w0 ∈ p.vars := hsub w0 (by rw [hl]; rfl)
    exact List.ne_nil_of_mem (mrvCandidates_complete p s w0 d0 hl hmem)
  obtain ⟨c, cs, hcseq⟩ := List.exists_cons_of_ne_nil hcs
  have hmrv : minimum_remaining_values p s = (mrvPick c cs).2.2 := by
    rw [minimum_remaining_values, hcseq]
  have htmem : mrvPick c cs ∈ mrvCandidates p s := by
    rw [hcseq]; exact mrvPick_mem c cs
  obtain ⟨dt, hdt, hcard, henum⟩ := mem_mrvCandidates p s (mrvPick c cs) htmem
  have hidx := (idx_le_of_mem_enumFromD _ _ p.vars 0 henum).1
  constructor
  · rw [hmrv, hdt]; rfl
  · intro w dw dr hw hdr
    have hwmem : w ∈ p.vars := hsub w (by rw [hw]; rfl)
    have hmin := mrvPick_min c cs (dw.card, idxOfD w p.vars, w)
      (by rw [← hcseq]; exact mrvCandidates_complete p s w dw hw hwmem)
    have hdrdt : dr = dt := by
      rw [hmrv] at hdr
      rw [hdr] at hdt
      injection hdt
    subst hdrdt
    rw [ltK] at hmin
    simp only at hmin
    rw [hmrv]
    constructor
    · omega
    · intro heq
      omega

/-- Witness for C4 on scenario 1's initial snapshot. -/
theorem minimum_remaining_values_spec_witness :
    initSnapshot scenario1 ≠ [] ∧
    (lookupD (initSnapshot scenario1)
      (minimum_remaining_values scenario1 (initSnapshot scenario1))).isSome = true := by
  refine ⟨by decide, ?_⟩
  refine (minimum_remaining_values_spec scenario1 (initSnapshot scenario1)
    (by decide) ?_).1
  intro w hw
  by_cases h1 : w = "X"
  · rw [h1]; decide
  · by_cases h2 : w = "Y"
    · rw [h2]; decide
    · exfalso
      have hnone : lookupD (initSnapshot scenario1) w = none := by
        show lookupD [("X", ({0, 1} : Finset Val)), ("Y", ({0, 1} : Finset Val))] w
          = none
        simp [lookupD, h1, h2]
      rw [hnone] at hw
      cases hw

/-! ### `least_restraining_values`: specification -/

theorem finsetAsc_mem (s : Finset Val) (v : Val) : v ∈ finsetAsc s ↔ v ∈ s := by
  rw [finsetAsc]
  constructor
  · intro h
    simpa using (List.mem_filter.mp h).2
  · intro h
    apply List.mem_filter.mpr
    refine ⟨?_, by simpa using h⟩
    apply List.mem_range.mpr
    have h2 : id v ≤ s.sup id := Finset.le_sup h
    have h3 : v ≤ s.sup id := h2
    exact Nat.lt_succ_of_le h3

theorem finsetAsc_nodup (s : Finset Val) : (finsetAsc s).Nodup :=
  (List.nodup_range _).filter _

theorem lrv_perm (p : Problem) (x : Var) (s : Snapshot) :
    (least_restraining_values p x s).Perm (finsetAsc ((lookupD s x).getD ∅)) := by
  rw [least_restraining_values]
  have h1 := (List.perm_insertionSort lexLe
    ((finsetAsc ((lookupD s x).getD ∅)).map
      (fun v => (restraintScore p x s v, v)))).map Prod.snd
  rw [List.map_map] at h1
  have h2 : List.map (Prod.snd ∘ fun v : Val => (restraintScore p x s v, v))
      (finsetAsc ((lookupD s x).getD ∅)) = finsetAsc ((lookupD s x).getD ∅) := by
    rw [show (Prod.snd ∘ fun v : Val => (restraintScore p x s v, v)) = id from rfl,
      List.map_id]
  rw [h2] at h1
  exact h1

theorem lrv_pairwise (p : Problem) (x : Var) (s : Snapshot) :
    (least_restraining_values p x s).Pairwise (fun u v =>
      restraintScore p x s u < restraintScore p x s v ∨
        (restraintScore p x s u = restraintScore p x s v ∧ u ≤ v)) := by
  rw [least_restraining_values]
  rw [List.pairwise_map]
  have hsorted : List.Pairwise lexLe
      (((finsetAsc ((lookupD s x).getD ∅)).map
        (fun v => (restraintScore p x s v, v))).insertionSort lexLe) :=
    List.sorted_insertionSort lexLe _
  refine List.Pairwise.imp_of_mem ?_ hsorted
  intro a b ha hb hr
  obtain ⟨va, _, hfa⟩ := List.mem_map.mp
    ((List.perm_insertionSort lexLe _).mem_iff.mp ha)
  obtain ⟨vb, _, hfb⟩ := List.mem_map.mp
    ((List.perm_insertionSort lexLe _).mem_iff.mp hb)
  rw [lexLe] at hr
  have hsa : a.1 = restraintScore p x s a.2 := by rw [← hfa]
  have hsb : b.1 = restraintScore p x s b.2 := by rw [← hfb]
  rw [hsa, hsb] at hr
  exact hr

/-- C5: for a variable present in the snapshot, LRV returns exactly the
values of that variable's snapshot domain (each exactly once), ordered so
that an earlier value never has a larger restraint score than a later one,
and equal scores are in ascending value order; the restraint score counts
the (constraint, neighbor-value) pairs that the candidate value would make
inconsistent, over binary constraints incident to the variable whose other
endpoint is a snapshot key. -/
theorem least_restraining_values_spec (p : Problem) (x : Var) (s : Snapshot)
    (d : Finset Val) (hx : lookupD s x = some d) :
    (∀ v, v ∈ least_restraining_values p x s ↔ v ∈ d) ∧
    (least_restraining_values p x s).Nodup ∧
    (least_restraining_values p x s).Pairwise (fun u v =>
      restraintScore p x s u < restraintScore p x s v ∨
        (restraintScore p x s u = restraintScore p x s v ∧ u ≤ v)) := by
  have hperm := lrv_perm p x s
  rw [hx] at hperm
  refine ⟨?_, ?_, lrv_pairwise p x s⟩
  · intro v
    rw [hperm.mem_iff]
    exact finsetAsc_mem d v
  · rw [hperm.nodup_iff]
    exact finsetAsc_nodup d

/-- Witness for C5 on scenario 1: `X`'s snapshot domain is `{0, 1}` and the
returned list contains exactly its values. -/
theorem least_restraining_values_spec_witness :
    lookupD (initSnapshot scenario1) "X" = some ({0, 1} : Finset Val) ∧
    (0 ∈ least_restraining_values scenario1 "X" (initSnapshot scenario1) ↔
      0 ∈ ({0, 1} : Finset Val)) :=
  ⟨by decide,
    (least_restraining_values_spec scenario1 "X" (initSnapshot scenario1)
      ({0, 1} : Finset Val) (by decide)).1 0⟩

/-! ### `forward_checking`: step equations and structural lemmas -/

theorem lookupD_setD {β : Type} (d : List (Var × β)) (x w : Var) (b : β) :
    lookupD (setD d x b) w = if w = x then some b else lookupD d w := by
  by_cases h : w = x
  · rw [if_pos h, h]
    exact lookupD_setD_self d x b
  · rw [if_neg h]
    exact lookupD_setD_ne d x w b h

theorem fcList_cons_unary (x : Var) (xv : Val) (u : UnaryConstraint)
    (rest : List Constraint) (s : Snapshot) :
    fcList x xv (Constraint.unary u :: rest) s = fcList x xv rest s := rfl

theorem fcList_cons_skip (x : Var) (xv : Val) (b : BinaryConstraint)
    (rest : List Constraint) (s : Snapshot) (h : x ≠ b.va ∧ x ≠ b.vb) :
    fcList x xv (Constraint.binary b :: rest) s = fcList x xv rest s := by
  rw [fcList, if_pos h]

theorem fcList_cons_nokey (x : Var) (xv : Val) (b : BinaryConstraint)
    (rest : List Constraint) (s : Snapshot) (h : ¬(x ≠ b.va ∧ x ≠ b.vb))
    (hl : lookupD s (neighborOf b x) = none) :
    fcList x xv (Constraint.binary b :: rest) s = fcList x xv rest s := by
  rw [fcList, if_neg h, hl]

theorem fcList_cons_empty (x : Var) (xv : Val) (b : BinaryConstraint)
    (rest : List Constraint) (s : Snapshot) (od : Finset Val)
    (h : ¬(x ≠ b.va ∧ x ≠ b.vb)) (hl : lookupD s (neighborOf b x) = some od)
    (he : od.filter (fun wv => fcEval b x xv (neighborOf b x) wv = true) = ∅) :
    fcList x xv (Constraint.binary b :: rest) s =
      (false, setD s (neighborOf b x)
        (od.filter (fun wv => fcEval b x xv (neighborOf b x) wv = true))) := by
  rw [fcList, if_neg h, hl]
  simp [he]

theorem fcList_cons_step (x : Var) (xv : Val) (b : BinaryConstraint)
    (rest : List Constraint) (s : Snapshot) (od : Finset Val)
    (h : ¬(x ≠ b.va ∧ x ≠ b.vb)) (hl : lookupD s (neighborOf b x) = some od)
    (he : od.filter (fun wv => fcEval b x xv (neighborOf b x) wv = true) ≠ ∅) :
    fcList x xv (Constraint.binary b :: rest) s =
      fcList x xv rest (setD s (neighborOf b x)
        (od.filter (fun wv => fcEval b x xv (neighborOf b x) wv = true))) := by
  rw [fcList, if_neg h, hl]
  simp [he]

theorem fcList_keys (x : Var) (xv : Val) (L : List Constraint) (s : Snapshot) :
    keysD (fcList x xv L s).2 = keysD s := by
  induction L generalizing s with
  | nil => rfl
  | cons c rest ih =>
    cases c with
    | unary u => rw [fcList_cons_unary]; exact ih s
    | binary b =>
      by_cases hski : x ≠ b.va ∧ x ≠ b.vb
      · rw [fcList_cons_skip _ _ _ _ _ hski]; exact ih s
      · cases hl : lookupD s (neighborOf b x) with
        | none => rw [fcList_cons_nokey _ _ _ _ _ hski hl]; exact ih s
        | some od =>
          have hkeys : keysD (setD s (neighborOf b x)
              (od.filter (fun wv => fcEval b x xv (neighborOf b x) wv = true)))
              = keysD s :=
            keysD_setD_of_isSome s _ _ (by rw [hl]; rfl)
          by_cases hemp : od.filter
              (fun wv => fcEval b x xv (neighborOf b x) wv = true) = ∅
          · rw [fcList_cons_empty _ _ _ _ _ _ hski hl hemp]
            exact hkeys
          · rw [fcList_cons_step _ _ _ _ _ _ hski hl hemp]
            rw [ih]
            exact hkeys

theorem fcList_mono (x : Var) (xv : Val) (L : List Constraint) (s : Snapshot) :
    ∀ w d2, lookupD (fcList x xv L s).2 w = some d2 →
      ∃ d1, lookupD s w = some d1 ∧ d2 ⊆ d1 := by
  induction L generalizing s with
  | nil =>
    intro w d2 h
    exact ⟨d2, h, Finset.Subset.refl d2⟩
  | cons c rest ih =>
    intro w d2 h
    cases c with
    | unary u =>
      rw [fcList_cons_unary] at h
      exact ih s w d2 h
    | binary b =>
      by_cases hski : x ≠ b.va ∧ x ≠ b.vb
      · rw [fcList_cons_skip _ _ _ _ _ hski] at h
        exact ih s w d2 h
      · cases hl : lookupD s (neighborOf b x) with
        | none =>
          rw [fcList_cons_nokey _ _ _ _ _ hski hl] at h
          exact ih s w d2 h
        | some od =>
          by_cases hemp : od.filter
              (fun wv => fcEval b x xv (neighborOf b x) wv = true) = ∅
          · rw [fcList_cons_empty _ _ _ _ _ _ hski hl hemp] at h
            rw [show ((false, setD s (neighborOf b x)
                (od.filter (fun wv => fcEval b x xv (neighborOf b x) wv = true))) :
                Bool × Snapshot).2
              = setD s (neighborOf b x)
                (od.filter (fun wv => fcEval b x xv (neighborOf b x) wv = true))
              from rfl] at h
            rw [lookupD_setD] at h
            by_cases hw : w = neighborOf b x
            · rw [if_pos hw] at h
              injection h with h2
              refine ⟨od, by rw [hw, hl], ?_⟩
              rw [← h2]
              exact Finset.filter_subset _ od
            · rw [if_neg hw] at h
              exact ⟨d2, h, Finset.Subset.refl d2⟩
          · rw [fcList_cons_step _ _ _ _ _ _ hski hl hemp] at h
            obtain ⟨d1, hd1, hsub⟩ := ih _ w d2 h
            rw [lookupD_setD] at hd1
            by_cases hw : w = neighborOf b x
            · rw [if_pos hw] at hd1
              injection hd1 with h2
              refine ⟨od, by rw [hw, hl], ?_⟩
              rw [← h2] at hsub
              exact hsub.trans (Finset.filter_subset _ od)
            · rw [if_neg hw] at hd1
              exact ⟨d1, hd1, hsub⟩

theorem fcList_untouched (x : Var) (xv : Val) (L : List Constraint) (s : Snapshot)
    (w : Var)
    (hw : ∀ b, Constraint.binary b ∈ L → (x = b.va ∨ x = b.vb) →
      neighborOf b x ≠ w) :
    lookupD (fcList x xv L s).2 w = lookupD s w := by
  induction L generalizing s with
  | nil => rfl
  | cons c rest ih =>
    have hwrest : ∀ b, Constraint.binary b ∈ rest → (x = b.va ∨ x = b.vb) →
        neighborOf b x ≠ w :=
      fun b hb => hw b (List.mem_cons_of_mem _ hb)
    cases c with
    | unary u => rw [fcList_cons_unary]; exact ih s hwrest
    | binary b =>
      by_cases hski : x ≠ b.va ∧ x ≠ b.vb
      · rw [fcList_cons_skip _ _ _ _ _ hski]; exact ih s hwrest
      · have hinc : x = b.va ∨ x = b.vb := by
          by_contra hcon
          push_neg at hcon
          exact hski hcon
        have hne : neighborOf b x ≠ w := hw b (List.mem_cons_self _ _) hinc
        cases hl : lookupD s (neighborOf b x) with
        | none => rw [fcList_cons_nokey _ _ _ _ _ hski hl]; exact ih s hwrest
        | some od =>
          by_cases hemp : od.filter
              (fun wv => fcEval b x xv (neighborOf b x) wv = true) = ∅
          · rw [fcList_cons_empty _ _ _ _ _ _ hski hl hemp]
            rw [show ((false, setD s (neighborOf b x)
                (od.filter (fun wv => fcEval b x xv (neighborOf b x) wv = true))) :
                Bool × Snapshot).2
              = setD s (neighborOf b x)
                (od.filter (fun wv => fcEval b x xv (neighborOf b x) wv = true))
              from rfl]
            rw [lookupD_setD, if_neg (fun hcon => hne hcon.symm)]
          · rw [fcList_cons_step _ _ _ _ _ _ hski hl hemp, ih _ hwrest]
            rw [lookupD_setD, if_neg (fun hcon => hne hcon.symm)]

/-! ### Evaluation of a binary constraint on the two-entry dict -/

theorem fcEval_eq_evalWith (b : BinaryConstraint) (x : Var) (xv : Val) (w : Var)
    (wv : Val) (hinc : x = b.va ∨ x = b.vb) (hnb : neighborOf b x = w)
    (hwx : w ≠ x) :
    fcEval b x xv w wv = evalWith b x xv wv := by
  have hdict : setD (setD [] x xv) w wv = [(x, xv), (w, wv)] := by
    rw [show setD ([] : Assignment) x xv = [(x, xv)] from rfl, setD,
      if_neg hwx]
    rfl
  rw [fcEval, hdict, BinaryConstraint.isSatisfied]
  rcases hinc with hva | hvb
  · by_cases hvb2 : b.vb = x
    · exfalso
      rw [neighborOf, if_pos hvb2, ← hva] at hnb
      exact hwx hnb.symm
    · rw [neighborOf, if_neg hvb2] at hnb
      have h1 : lookupD [(x, xv), (w, wv)] b.va = some xv := by
        rw [lookupD, if_pos hva.symm]
      have h2 : lookupD [(x, xv), (w, wv)] b.vb = some wv := by
        rw [lookupD, if_neg hvb2, lookupD, if_pos hnb]
      rw [h1, h2, evalWith, if_pos hva.symm]
  · have hvb2 : b.vb = x := hvb.symm
    rw [neighborOf, if_pos hvb2] at hnb
    have hvax : b.va ≠ x := by
      intro hcon
      rw [← hnb, hcon] at hwx
      exact hwx rfl
    have h1 : lookupD [(x, xv), (w, wv)] b.va = some wv := by
      rw [lookupD, if_neg hvax, lookupD, if_pos hnb]
    have h2 : lookupD [(x, xv), (w, wv)] b.vb = some xv := by
      rw [lookupD, if_pos hvb2]
    rw [h1, h2, evalWith, if_neg hvax]

theorem keepVal_eq_pruneCondB (L : List Constraint) (x : Var) (xv : Val)
    (w : Var) (wv : Val) (hwx : w ≠ x) :
    keepVal L x xv w wv = pruneCondB L x xv w wv := by
  induction L with
  | nil => rfl
  | cons c rest ih =>
    cases c with
    | unary u => exact ih
    | binary b =>
      rw [keepVal, pruneCondB, ih]
      by_cases hC : (x = b.va ∨ x = b.vb) ∧ neighborOf b x = w
      · rw [if_pos hC, if_pos hC, fcEval_eq_evalWith b x xv w wv hC.1 hC.2 hwx]
      · rw [if_neg hC, if_neg hC]

theorem pruneCondB_of_not_neighbor (L : List Constraint) (x : Var) (xv : Val)
    (w : Var) (wv : Val) (h : isNeighbor L x w = false) :
    pruneCondB L x xv w wv = true := by
  induction L with
  | nil => rfl
  | cons c rest ih =>
    cases c with
    | unary u => exact ih h
    | binary b =>
      rw [isNeighbor, Bool.or_eq_false_iff] at h
      rw [pruneCondB, if_neg (by simpa using h.1), ih h.2, Bool.true_and]

theorem pruneCondB_mem_binary (L : List Constraint) (x : Var) (xv : Val)
    (w : Var) (wv : Val) (b : BinaryConstraint)
    (hb : Constraint.binary b ∈ L)
    (hC : (x = b.va ∨ x = b.vb) ∧ neighborOf b x = w)
    (h : pruneCondB L x xv w wv = true) : fcEval b x xv w wv = true := by
  induction L with
  | nil => cases hb
  | cons c rest ih =>
    cases c with
    | unary u =>
      rw [List.mem_cons] at hb
      rcases hb with hb | hb
      · cases hb
      · exact ih hb h
    | binary b2 =>
      rw [pruneCondB, Bool.and_eq_true] at h
      rw [List.mem_cons] at hb
      rcases hb with hb | hb
      · have hbb : b2 = b := by injection hb.symm
        subst hbb
        have := h.1
        rw [if_pos hC] at this
        exact this
      · exact ih hb h.2

theorem pruneCondB_cons_rel (b : BinaryConstraint) (rest : List Constraint)
    (x : Var) (xv : Val) (w : Var) (wv : Val)
    (hC : (x = b.va ∨ x = b.vb) ∧ neighborOf b x = w) :
    pruneCondB (Constraint.binary b :: rest) x xv w wv
      = (fcEval b x xv w wv && pruneCondB rest x xv w wv) := by
  rw [pruneCondB, if_pos hC]

theorem pruneCondB_cons_irrel (b : BinaryConstraint) (rest : List Constraint)
    (x : Var) (xv : Val) (w : Var) (wv : Val)
    (hC : ¬((x = b.va ∨ x = b.vb) ∧ neighborOf b x = w)) :
    pruneCondB (Constraint.binary b :: rest) x xv w wv
      = pruneCondB rest x xv w wv := by
  rw [pruneCondB, if_neg hC, Bool.true_and]

theorem fcList_true_filter (x : Var) (xv : Val) (L : List Constraint)
    (s : Snapshot) (h : (fcList x xv L s).1 = true) :
    ∀ w, lookupD (fcList x xv L s).2 w
      = (lookupD s w).map
          (fun d => d.filter (fun v => pruneCondB L x xv w v = true)) := by
  induction L generalizing s with
  | nil =>
    intro w
    rw [show (fcList x xv [] s).2 = s from rfl]
    cases hl : lookupD s w with
    | none => rfl
    | some d =>
      show some d = some (d.filter (fun v => pruneCondB [] x xv w v = true))
      rw [Finset.filter_true_of_mem]
      intro v _
      rfl
  | cons c rest ih =>
    intro w
    cases c with
    | unary u =>
      rw [fcList_cons_unary]
      exact ih s h w
    | binary b =>
      by_cases hski : x ≠ b.va ∧ x ≠ b.vb
      · have hCfalse : ∀ w2, ¬((x = b.va ∨ x = b.vb) ∧ neighborOf b x = w2) :=
          fun w2 hC => hC.1.elim hski.1 hski.2
        rw [fcList_cons_skip _ _ _ _ _ hski]
        have h2 : (fcList x xv rest s).1 = true := by
          rw [← fcList_cons_skip _ _ _ _ _ hski]
          exact h
        rw [ih s h2 w]
        cases hl : lookupD s w with
        | none => rfl
        | some d =>
          show some (d.filter (fun v => pruneCondB rest x xv w v = true))
            = some (d.filter (fun v =>
                pruneCondB (Constraint.binary b :: rest) x xv w v = true))
          exact congrArg some (Finset.filter_congr (fun v _ => by
            rw [pruneCondB_cons_irrel b rest x xv w v (hCfalse w)]))
      · have hinc : x = b.va ∨ x = b.vb := by
          by_contra hcon
          push_neg at hcon
          exact hski hcon
        cases hl0 : lookupD s (neighborOf b x) with
        | none =>
          rw [fcList_cons_nokey _ _ _ _ _ hski hl0]
          have h2 : (fcList x xv rest s).1 = true := by
            rw [← fcList_cons_nokey _ _ _ _ _ hski hl0]
            exact h
          rw [ih s h2 w]
          cases hl : lookupD s w with
          | none => rfl
          | some d =>
            have hwn : neighborOf b x ≠ w := by
              intro hcon
              rw [hcon, hl] at hl0
              cases hl0
            show some (d.filter (fun v => pruneCondB rest x xv w v = true))
              = some (d.filter (fun v =>
                  pruneCondB (Constraint.binary b :: rest) x xv w v = true))
            exact congrArg some (Finset.filter_congr (fun v _ => by
              rw [pruneCondB_cons_irrel b rest x xv w v (fun hC => hwn hC.2)]))
        | some od =>
          by_cases hemp : od.filter
              (fun wv => fcEval b x xv (neighborOf b x) wv = true) = ∅
          · rw [fcList_cons_empty _ _ _ _ _ _ hski hl0 hemp] at h
            exact Bool.noConfusion h
          · rw [fcList_cons_step _ _ _ _ _ _ hski hl0 hemp]
            have h2 : (fcList x xv rest (setD s (neighborOf b x)
                (od.filter (fun wv =>
                  fcEval b x xv (neighborOf b x) wv = true)))).1 = true := by
              rw [← fcList_cons_step _ _ _ _ _ _ hski hl0 hemp]
              exact h
            rw [ih _ h2 w]
            by_cases hw : w = neighborOf b x
            · rw [lookupD_setD, if_pos hw, hw, hl0]
              show some ((od.filter (fun wv =>
                    fcEval b x xv (neighborOf b x) wv = true)).filter
                  (fun v => pruneCondB rest x xv (neighborOf b x) v = true))
                = some (od.filter (fun v =>
                    pruneCondB (Constraint.binary b :: rest) x xv
                      (neighborOf b x) v = true))
              rw [Finset.filter_filter]
              exact congrArg some (Finset.filter_congr (fun v _ => by
                rw [pruneCondB_cons_rel b rest x xv (neighborOf b x) v
                  ⟨hinc, rfl⟩, Bool.and_eq_true]))
            · rw [lookupD_setD, if_neg hw]
              cases hl : lookupD s w with
              | none => rfl
              | some d =>
                show some (d.filter (fun v => pruneCondB rest x xv w v = true))
                  = some (d.filter (fun v =>
                      pruneCondB (Constraint.binary b :: rest) x xv w v = true))
                exact congrArg some (Finset.filter_congr (fun v _ => by
                  rw [pruneCondB_cons_irrel b rest x xv w v
                    (fun hC => hw hC.2.symm)]))

theorem fcList_true_sat (x : Var) (xv : Val) (L : List Constraint) (s : Snapshot)
    (h : (fcList x xv L s).1 = true) (b : BinaryConstraint)
    (hb : Constraint.binary b ∈ L) (hinc : x = b.va ∨ x = b.vb)
    (d2 : Finset Val)
    (hd2 : lookupD (fcList x xv L s).2 (neighborOf b x) = some d2) :
    ∀ v ∈ d2, fcEval b x xv (neighborOf b x) v = true := by
  intro v hv
  have hfilter := fcList_true_filter x xv L s h (neighborOf b x)
  rw [hd2] at hfilter
  cases hl : lookupD s (neighborOf b x) with
  | none =>
    rw [hl] at hfilter
    cases hfilter
  | some d1 =>
    rw [hl] at hfilter
    have hd2eq : d2 = d1.filter
        (fun v => pruneCondB L x xv (neighborOf b x) v = true) := by
      injection hfilter
    rw [hd2eq] at hv
    exact pruneCondB_mem_binary L x xv (neighborOf b x) v b hb ⟨hinc, rfl⟩
      (Finset.mem_filter.mp hv).2

theorem step_filter_eq (b : BinaryConstraint) (rest : List Constraint) (x : Var)
    (xv : Val) (od : Finset Val) (hinc : x = b.va ∨ x = b.vb) :
    (od.filter (fun wv => fcEval b x xv (neighborOf b x) wv = true)).filter
        (fun v => pruneCondB rest x xv (neighborOf b x) v = true)
      = od.filter (fun v =>
          pruneCondB (Constraint.binary b :: rest) x xv (neighborOf b x) v
            = true) := by
  rw [Finset.filter_filter]
  exact Finset.filter_congr (fun v _ => by
    rw [pruneCondB_cons_rel b rest x xv (neighborOf b x) v ⟨hinc, rfl⟩,
      Bool.and_eq_true])

theorem irrel_filter_eq (b : BinaryConstraint) (rest : List Constraint) (x : Var)
    (xv : Val) (w : Var) (d : Finset Val)
    (hC : ¬((x = b.va ∨ x = b.vb) ∧ neighborOf b x = w)) :
    d.filter (fun v =>
        pruneCondB (Constraint.binary b :: rest) x xv w v = true)
      = d.filter (fun v => pruneCondB rest x xv w v = true) :=
  Finset.filter_congr (fun v _ => by
    rw [pruneCondB_cons_irrel b rest x xv w v hC])

theorem fcList_true_iff (x : Var) (xv : Val) (L : List Constraint) (s : Snapshot) :
    (fcList x xv L s).1 = true ↔
      ∀ w d, lookupD s w = some d → isNeighbor L x w = true →
        d.filter (fun v => pruneCondB L x xv w v = true) ≠ ∅ := by
  induction L generalizing s with
  | nil =>
    constructor
    · intro _ w d _ hnb
      cases hnb
    · intro _
      rfl
  | cons c rest ih =>
    cases c with
    | unary u =>
      rw [fcList_cons_unary, ih s]
      exact Iff.rfl
    | binary b =>
      by_cases hski : x ≠ b.va ∧ x ≠ b.vb
      · have hCfalse : ∀ w2, ¬((x = b.va ∨ x = b.vb) ∧ neighborOf b x = w2) :=
          fun w2 hC => hC.1.elim hski.1 hski.2
        have hnbeq : ∀ w, isNeighbor (Constraint.binary b :: rest) x w
            = isNeighbor rest x w := by
          intro w
          rw [isNeighbor, decide_eq_false (hCfalse w), Bool.false_or]
        rw [fcList_cons_skip _ _ _ _ _ hski, ih s]
        constructor
        · intro H w d hl hnb
          rw [hnbeq w] at hnb
          rw [irrel_filter_eq b rest x xv w d (hCfalse w)]
          exact H w d hl hnb
        · intro H w d hl hnb
          have := H w d hl (by rw [hnbeq w]; exact hnb)
          rw [irrel_filter_eq b rest x xv w d (hCfalse w)] at this
          exact this
      · have hinc : x = b.va ∨ x = b.vb := by
          by_contra hcon
          push_neg at hcon
          exact hski hcon
        cases hl0 : lookupD s (neighborOf b x) with
        | none =>
          rw [fcList_cons_nokey _ _ _ _ _ hski hl0, ih s]
          constructor
          · intro H w d hl hnb
            have hwn : neighborOf b x ≠ w := by
              intro hcon
              rw [hcon, hl] at hl0
              cases hl0
            rw [isNeighbor, Bool.or_eq_true, decide_eq_true_eq] at hnb
            rcases hnb with hC | hnb
            · exact absurd hC.2 hwn
            · rw [irrel_filter_eq b rest x xv w d (fun hC => hwn hC.2)]
              exact H w d hl hnb
          · intro H w d hl hnb
            have hwn : neighborOf b x ≠ w := by
              intro hcon
              rw [hcon, hl] at hl0
              cases hl0
            have := H w d hl (by
              rw [isNeighbor, Bool.or_eq_true]
              exact Or.inr hnb)
            rw [irrel_filter_eq b rest x xv w d (fun hC => hwn hC.2)] at this
            exact this
        | some od =>
          by_cases hemp : od.filter
              (fun wv => fcEval b x xv (neighborOf b x) wv = true) = ∅
          · rw [fcList_cons_empty _ _ _ _ _ _ hski hl0 hemp]
            apply iff_of_false
            · exact fun hcon => Bool.noConfusion hcon
            · intro H
              have hnb0 : isNeighbor (Constraint.binary b :: rest) x
                  (neighborOf b x) = true := by
                rw [isNeighbor, Bool.or_eq_true]
                exact Or.inl (decide_eq_true ⟨hinc, rfl⟩)
              apply H (neighborOf b x) od hl0 hnb0
              apply Finset.eq_empty_iff_forall_not_mem.mpr
              intro v hv
              have hfc : fcEval b x xv (neighborOf b x) v = true := by
                have hp := (Finset.mem_filter.mp hv).2
                rw [pruneCondB_cons_rel b rest x xv (neighborOf b x) v
                  ⟨hinc, rfl⟩, Bool.and_eq_true] at hp
                exact hp.1
              have hvnd : v ∈ od.filter
                  (fun wv => fcEval b x xv (neighborOf b x) wv = true) :=
                Finset.mem_filter.mpr ⟨(Finset.mem_filter.mp hv).1, hfc⟩
              rw [hemp] at hvnd
              exact absurd hvnd (Finset.not_mem_empty v)
          · rw [fcList_cons_step _ _ _ _ _ _ hski hl0 hemp, ih _]
            constructor
            · intro H w d hl hnb
              by_cases hw : w = neighborOf b x
              · subst hw
                have hdod : d = od := by
                  rw [hl] at hl0
                  injection hl0
                rw [hdod, ← step_filter_eq b rest x xv od hinc]
                cases hnbrest : isNeighbor rest x (neighborOf b x) with
                | true =>
                  exact H (neighborOf b x) (od.filter
                    (fun wv => fcEval b x xv (neighborOf b x) wv = true))
                    (by rw [lookupD_setD, if_pos rfl]) hnbrest
                | false =>
                  have heq : (od.filter (fun wv =>
                        fcEval b x xv (neighborOf b x) wv = true)).filter
                      (fun v => pruneCondB rest x xv (neighborOf b x) v = true)
                      = od.filter (fun wv =>
                        fcEval b x xv (neighborOf b x) wv = true) :=
                    Finset.filter_true_of_mem (fun v _ =>
                      pruneCondB_of_not_neighbor rest x xv (neighborOf b x) v
                        hnbrest)
                  rw [heq]
                  exact hemp
              · rw [isNeighbor, Bool.or_eq_true, decide_eq_true_eq] at hnb
                rcases hnb with hC | hnb
                · exact absurd hC.2 (fun hcon => hw hcon.symm)
                · rw [irrel_filter_eq b rest x xv w d
                    (fun hC => hw hC.2.symm)]
                  exact H w d (by rw [lookupD_setD, if_neg hw]; exact hl) hnb
            · intro H w d hl2 hnb
              by_cases hw : w = neighborOf b x
              · subst hw
                have hdnd : d = od.filter
                    (fun wv => fcEval b x xv (neighborOf b x) wv = true) := by
                  rw [lookupD_setD, if_pos rfl] at hl2
                  injection hl2 with h
                  exact h.symm
                have hH := H (neighborOf b x) od hl0 (by
                  rw [isNeighbor, Bool.or_eq_true]
                  exact Or.inl (decide_eq_true ⟨hinc, rfl⟩))
                rw [← step_filter_eq b rest x xv od hinc] at hH
                rw [hdnd]
                exact hH
              · rw [lookupD_setD, if_neg hw] at hl2
                have hH := H w d hl2 (by
                  rw [isNeighbor, Bool.or_eq_true]
                  exact Or.inr hnb)
                rw [irrel_filter_eq b rest x xv w d
                  (fun hC => hw hC.2.symm)] at hH
                exact hH

theorem fcList_false_decomp (x : Var) (xv : Val) (L : List Constraint)
    (s : Snapshot) (h : (fcList x xv L s).1 = false) :
    ∃ L1 b L2 od, L = L1 ++ Constraint.binary b :: L2 ∧
      (x = b.va ∨ x = b.vb) ∧
      (fcList x xv L1 s).1 = true ∧
      lookupD (fcList x xv L1 s).2 (neighborOf b x) = some od ∧
      od.filter (fun wv => fcEval b x xv (neighborOf b x) wv = true) = ∅ ∧
      (fcList x xv L s).2 = setD (fcList x xv L1 s).2 (neighborOf b x) ∅ := by
  induction L generalizing s with
  | nil => exact Bool.noConfusion h
  | cons c rest ih =>
    cases c with
    | unary u =>
      rw [fcList_cons_unary] at h
      obtain ⟨L1, b, L2, od, heq, hinc, h1, h2, h3, h4⟩ := ih s h
      refine ⟨Constraint.unary u :: L1, b, L2, od, by rw [heq]; rfl, hinc, ?_, ?_,
        h3, ?_⟩
      · rw [fcList_cons_unary]
        exact h1
      · rw [fcList_cons_unary]
        exact h2
      · rw [fcList_cons_unary, fcList_cons_unary]
        exact h4
    | binary b2 =>
      by_cases hski : x ≠ b2.va ∧ x ≠ b2.vb
      · rw [fcList_cons_skip _ _ _ _ _ hski] at h
        obtain ⟨L1, b, L2, od, heq, hinc, h1, h2, h3, h4⟩ := ih s h
        refine ⟨Constraint.binary b2 :: L1, b, L2, od, by rw [heq]; rfl, hinc,
          ?_, ?_, h3, ?_⟩
        · rw [fcList_cons_skip _ _ _ _ _ hski]
          exact h1
        · rw [fcList_cons_skip _ _ _ _ _ hski]
          exact h2
        · rw [fcList_cons_skip _ _ _ _ _ hski, fcList_cons_skip _ _ _ _ _ hski]
          exact h4
      · cases hl0 : lookupD s (neighborOf b2 x) with
        | none =>
          rw [fcList_cons_nokey _ _ _ _ _ hski hl0] at h
          obtain ⟨L1, b, L2, od, heq, hinc, h1, h2, h3, h4⟩ := ih s h
          refine ⟨Constraint.binary b2 :: L1, b, L2, od, by rw [heq]; rfl, hinc,
            ?_, ?_, h3, ?_⟩
          · rw [fcList_cons_nokey _ _ _ _ _ hski hl0]
            exact h1
          · rw [fcList_cons_nokey _ _ _ _ _ hski hl0]
            exact h2
          · rw [fcList_cons_nokey _ _ _ _ _ hski hl0,
              fcList_cons_nokey _ _ _ _ _ hski hl0]
            exact h4
        | some od =>
          have hinc2 : x = b2.va ∨ x = b2.vb := by
            by_contra hcon
            push_neg at hcon
            exact hski hcon
          by_cases hemp : od.filter
              (fun wv => fcEval b2 x xv (neighborOf b2 x) wv = true) = ∅
          · refine ⟨[], b2, rest, od, rfl, hinc2, rfl, hl0, hemp, ?_⟩
            rw [fcList_cons_empty _ _ _ _ _ _ hski hl0 hemp, hemp]
            rfl
          · rw [fcList_cons_step _ _ _ _ _ _ hski hl0 hemp] at h
            obtain ⟨L1, b, L2, od2, heq, hinc, h1, h2, h3, h4⟩ := ih _ h
            refine ⟨Constraint.binary b2 :: L1, b, L2, od2, by rw [heq]; rfl,
              hinc, ?_, ?_, h3, ?_⟩
            · rw [fcList_cons_step _ _ _ _ _ _ hski hl0 hemp]
              exact h1
            · rw [fcList_cons_step _ _ _ _ _ _ hski hl0 hemp]
              exact h2
            · rw [fcList_cons_step _ _ _ _ _ _ hski hl0 hemp,
                fcList_cons_step _ _ _ _ _ _ hski hl0 hemp]
              exact h4

theorem isNeighbor_of_mem (L : List Constraint) (x w : Var)
    (b : BinaryConstraint) (hb : Constraint.binary b ∈ L)
    (hinc : x = b.va ∨ x = b.vb) (hnb : neighborOf b x = w) :
    isNeighbor L x w = true := by
  induction L with
  | nil => cases hb
  | cons c rest ih =>
    rw [List.mem_cons] at hb
    rcases hb with hb | hb
    · rw [← hb, isNeighbor, Bool.or_eq_true]
      exact Or.inl (decide_eq_true ⟨hinc, hnb⟩)
    · cases c with
      | unary u => exact ih hb
      | binary b3 =>
        rw [isNeighbor, Bool.or_eq_true]
        exact Or.inr (ih hb)

/-- C2: the forward-checking contract on a snapshot that does not carry the
assigned variable (it holds only unassigned variables).  Writing `FC` for
the call's result: the snapshot's key set is unchanged; entries of
variables that are not neighbors of the assigned variable are untouched;
on success every snapshot entry has been filtered to exactly the values
accepted by all constraints joining it to the assigned variable; the call
succeeds if and only if that filter leaves every neighbor entry non-empty;
and on failure the run stopped at the first constraint whose pruning
emptied its neighbor's domain, the later constraints being left
unprocessed (the final snapshot is the one the successful prefix produced,
with just that neighbor's entry emptied). -/
theorem forward_checking_contract (p : Problem) (x : Var) (xv : Val)
    (s : Snapshot) (hx : lookupD s x = none) :
    keysD (forward_checking p x xv s).2 = keysD s ∧
    (∀ w, isNeighbor p.constraints x w = false →
      lookupD (forward_checking p x xv s).2 w = lookupD s w) ∧
    ((forward_checking p x xv s).1 = true →
      ∀ w d, lookupD s w = some d →
        lookupD (forward_checking p x xv s).2 w
          = some (d.filter (fun v => keepVal p.constraints x xv w v = true))) ∧
    ((forward_checking p x xv s).1 = true ↔
      ∀ w d, lookupD s w = some d → isNeighbor p.constraints x w = true →
        d.filter (fun v => keepVal p.constraints x xv w v = true) ≠ ∅) ∧
    ((forward_checking p x xv s).1 = false →
      ∃ L1 b L2 od, p.constraints = L1 ++ Constraint.binary b :: L2 ∧
        (x = b.va ∨ x = b.vb) ∧
        (fcList x xv L1 s).1 = true ∧
        lookupD (fcList x xv L1 s).2 (neighborOf b x) = some od ∧
        od.filter (fun wv => evalWith b x xv wv = true) = ∅ ∧
        (forward_checking p x xv s).2
          = setD (fcList x xv L1 s).2 (neighborOf b x) ∅) := by
  have hkeyne : ∀ w (d : Finset Val), lookupD s w = some d → w ≠ x := by
    intro w d hl hcon
    rw [hcon, hx] at hl
    cases hl
  have hkv : ∀ w (d : Finset Val), w ≠ x →
      d.filter (fun v => keepVal p.constraints x xv w v = true)
        = d.filter (fun v => pruneCondB p.constraints x xv w v = true) :=
    fun w d hwx => Finset.filter_congr (fun v _ => by
      rw [keepVal_eq_pruneCondB p.constraints x xv w v hwx])
  refine ⟨fcList_keys x xv p.constraints s, ?_, ?_, ?_, ?_⟩
  · intro w hnb
    apply fcList_untouched
    intro b hb hinc hcon
    have hcontra := isNeighbor_of_mem p.constraints x w b hb hinc hcon
    rw [hnb] at hcontra
    cases hcontra
  · intro htrue w d hl
    have hfil := fcList_true_filter x xv p.constraints s htrue w
    rw [hl] at hfil
    rw [show (forward_checking p x xv s).2
      = (fcList x xv p.constraints s).2 from rfl, hfil]
    show some (d.filter (fun v => pruneCondB p.constraints x xv w v = true))
      = some (d.filter (fun v => keepVal p.constraints x xv w v = true))
    exact congrArg some (hkv w d (hkeyne w d hl)).symm
  · rw [show (forward_checking p x xv s).1
      = (fcList x xv p.constraints s).1 from rfl,
      fcList_true_iff x xv p.constraints s]
    constructor
    · intro H w d hl hnb
      rw [hkv w d (hkeyne w d hl)]
      exact H w d hl hnb
    · intro H w d hl hnb
      have hH := H w d hl hnb
      rw [hkv w d (hkeyne w d hl)] at hH
      exact hH
  · intro hfalse
    obtain ⟨L1, b, L2, od, heq, hinc, h1, h2, h3, h4⟩ :=
      fcList_false_decomp x xv p.constraints s hfalse
    have hw0 : neighborOf b x ≠ x := by
      have hsome : (lookupD (fcList x xv L1 s).2 (neighborOf b x)).isSome
          = true := by
        rw [h2]
        rfl
      rw [lookupD_isSome_iff, fcList_keys, ← lookupD_isSome_iff] at hsome
      intro hcon
      rw [hcon, hx] at hsome
      cases hsome
    refine ⟨L1, b, L2, od, heq, hinc, h1, h2, ?_, h4⟩
    rw [← h3]
    exact Finset.filter_congr (fun v _ => by
      rw [fcEval_eq_evalWith b x xv (neighborOf b x) v hinc rfl hw0])

/-- Witness for C2: forward checking `X := 0` on the snapshot holding only
`Y` keeps the key set. -/
theorem forward_checking_contract_witness :
    lookupD [("Y", ({0, 1} : Finset Val))] "X" = none ∧
    keysD (forward_checking scenario1 "X" 0 [("Y", ({0, 1} : Finset Val))]).2
      = keysD [("Y", ({0, 1} : Finset Val))] :=
  ⟨by decide,
    (forward_checking_contract scenario1 "X" 0 [("Y", ({0, 1} : Finset Val))]
      (by decide)).1⟩

/-! ### Invariant machinery for the backtracking engine -/

theorem fcEval_cond_left (b : BinaryConstraint) (x : Var) (xv y : Val)
    (hva : x = b.va) (hvb : b.vb ≠ x) :
    fcEval b x xv b.vb y = b.condition xv y := by
  have hnb : neighborOf b x = b.vb := by rw [neighborOf, if_neg hvb]
  rw [fcEval_eq_evalWith b x xv b.vb y (Or.inl hva) hnb hvb, evalWith,
    if_pos hva.symm]

theorem fcEval_cond_right (b : BinaryConstraint) (x : Var) (xv z : Val)
    (hvb : x = b.vb) (hva : b.va ≠ x) :
    fcEval b x xv b.va z = b.condition z xv := by
  have hnb : neighborOf b x = b.va := by rw [neighborOf, if_pos hvb.symm]
  rw [fcEval_eq_evalWith b x xv b.va z (Or.inr hvb) hnb hva, evalWith,
    if_neg hva]

theorem lrv_mem_lookup (p : Problem) (x : Var) (s : Snapshot) (value : Val)
    (hv : value ∈ least_restraining_values p x s) :
    ∃ d, lookupD s x = some d ∧ value ∈ d := by
  have hperm := lrv_perm p x s
  rw [hperm.mem_iff, finsetAsc_mem] at hv
  cases hl : lookupD s x with
  | none =>
    rw [hl] at hv
    exact absurd hv (Finset.not_mem_empty value)
  | some d =>
    rw [hl] at hv
    exact ⟨d, rfl, hv⟩

theorem keysD_setD_fresh {β : Type} (d : List (Var × β)) (x : Var) (b : β)
    (h : lookupD d x = none) : keysD (setD d x b) = keysD d ++ [x] := by
  rw [setD_of_lookup_none d x b h, keysD, List.map_append]
  rfl

theorem not_mem_keysD_of_lookup_none {β : Type} (d : List (Var × β)) (x : Var)
    (h : lookupD d x = none) : x ∉ keysD d := by
  intro hmem
  rw [← lookupD_isSome_iff] at hmem
  rw [h] at hmem
  cases hmem

theorem unaryCondsB_extract (cs : List Constraint) (v : Var) (x : Val)
    (h : unaryCondsB cs v x = true) (u : UnaryConstraint)
    (hu : Constraint.unary u ∈ cs) (hv : u.var = v) : u.condition x = true := by
  rw [unaryCondsB, List.all_eq_true] at h
  have := h (Constraint.unary u) hu
  simpa [hv] using this

theorem oc_constraints_eq (p : Problem) :
    (one_consistency p).2.constraints
      = p.constraints.filter (fun c => !isUnary c) :=
  ocList_constraints p.constraints p.domains true

theorem oc_domains_eq (p : Problem) (v : Var) :
    (one_consistency p).2.domains v
      = (p.domains v).filter (fun x => unaryCondsB p.constraints v x = true) :=
  ocList_domains p.constraints p.domains true v

theorem oc_vars_eq (p : Problem) : (one_consistency p).2.vars = p.vars := rfl

theorem oc_constraints_sub (p : Problem) (c : Constraint)
    (hc : c ∈ (one_consistency p).2.constraints) : c ∈ p.constraints := by
  rw [oc_constraints_eq] at hc
  exact (List.mem_filter.mp hc).1

theorem oc_binary_mem (p : Problem) (b : BinaryConstraint)
    (hb : Constraint.binary b ∈ p.constraints) :
    Constraint.binary b ∈ (one_consistency p).2.constraints := by
  rw [oc_constraints_eq]
  exact List.mem_filter.mpr ⟨hb, by rw [isUnary]; rfl⟩

theorem oc_binary_distinct (p : Problem) (hWF : WellFormed p)
    (b : BinaryConstraint)
    (hb : Constraint.binary b ∈ (one_consistency p).2.constraints) :
    b.va ≠ b.vb :=
  (((hWF.2 (Constraint.binary b) (oc_constraints_sub p _ hb)).2) b rfl).2.2

theorem keysD_initSnapshot (q : Problem) : keysD (initSnapshot q) = q.vars := by
  rw [initSnapshot, keysD, List.map_map]
  rw [show (Prod.fst ∘ fun v : Var => (v, q.domains v)) = id from rfl]
  exact List.map_id q.vars

theorem lookupD_initSnapshot (q : Problem) (w : Var) :
    lookupD (initSnapshot q) w
      = if w ∈ q.vars then some (q.domains w) else none :=
  lookupD_map_fun q.vars q.domains w

theorem inv_root (p q : Problem) (hq : q = (one_consistency p).2)
    (hWF : WellFormed p) : Inv p q [] (initSnapshot q) := by
  have hvars : q.vars = p.vars := by rw [hq]; exact oc_vars_eq p
  have hanone : ∀ v, lookupD ([] : Assignment) v = none := fun _ => rfl
  refine ⟨?_, ?_, ?_, ?_, ?_, ?_, ?_, ?_, ?_, ?_, ?_⟩
  · exact List.nodup_nil
  · rw [keysD_initSnapshot, hvars]
    exact hWF.1
  · intro v hv
    right
    rw [lookupD_initSnapshot, if_pos (hvars ▸ hv)]
    rfl
  · intro v hv
    rw [hanone v] at hv
    cases hv
  · intro v hv
    rw [lookupD_initSnapshot] at hv
    by_cases hmem : v ∈ q.vars
    · rw [← hvars]
      exact hmem
    · rw [if_neg hmem] at hv
      cases hv
  · intro v hv
    rw [hanone v] at hv
    cases hv
  · intro v val hv
    rw [hanone v] at hv
    cases hv
  · intro v d hd
    rw [lookupD_initSnapshot] at hd
    by_cases hmem : v ∈ q.vars
    · rw [if_pos hmem] at hd
      injection hd with hd2
      rw [← hd2]
    · rw [if_neg hmem] at hd
      cases hd
  · intro b _ xv yv hva _
    rw [hanone] at hva
    cases hva
  · intro b _ xv d hva _
    rw [hanone] at hva
    cases hva
  · intro b _ yv d hvb _
    rw [hanone] at hvb
    cases hvb

theorem inv_step (p q : Problem)
    (hdist : ∀ b, Constraint.binary b ∈ q.constraints → b.va ≠ b.vb)
    (a : Assignment) (s : Snapshot) (hInv : Inv p q a s)
    (x : Var) (dx : Finset Val) (hx : lookupD s x = some dx)
    (value : Val) (hvdx : value ∈ dx) (s2 : Snapshot)
    (hfc : forward_checking q x value (eraseD s x) = (true, s2)) :
    Inv p q (setD a x value) s2 := by
  have hxs : (lookupD s x).isSome = true := by rw [hx]; rfl
  have hax : lookupD a x = none := by
    cases hl : lookupD a x with
    | none => rfl
    | some w => exact (hInv.disj x (by rw [hl]; rfl) hxs).elim
  have hfc1 : (forward_checking q x value (eraseD s x)).1 = true := by rw [hfc]
  have hfc2 : (forward_checking q x value (eraseD s x)).2 = s2 := by rw [hfc]
  have hkeys2 : keysD s2 = keysD (eraseD s x) := by
    rw [← hfc2]
    exact fcList_keys x value q.constraints (eraseD s x)
  have hmono : ∀ w d2, lookupD s2 w = some d2 →
      ∃ d1, lookupD (eraseD s x) w = some d1 ∧ d2 ⊆ d1 := by
    intro w d2 h2
    apply fcList_mono x value q.constraints (eraseD s x) w d2
    rw [show (fcList x value q.constraints (eraseD s x)).2
      = (forward_checking q x value (eraseD s x)).2 from rfl, hfc2]
    exact h2
  have hs2some : ∀ w, (lookupD s2 w).isSome = true
      ↔ (lookupD (eraseD s x) w).isSome = true := by
    intro w
    rw [lookupD_isSome_iff, lookupD_isSome_iff, hkeys2]
  have hs1lookup : ∀ w, lookupD (eraseD s x) w
      = if w = x then none else lookupD s w :=
    fun w => lookupD_eraseD s x w
  have hs2x : lookupD s2 x = none := by
    cases hl : lookupD s2 x with
    | none => rfl
    | some d =>
      have hcontra := (hs2some x).mp (by rw [hl]; rfl)
      rw [hs1lookup x, if_pos rfl] at hcontra
      cases hcontra
  have hs2ne : ∀ w, (lookupD s2 w).isSome = true → w ≠ x := by
    intro w hw hcon
    rw [hcon, hs2x] at hw
    cases hw
  have hs2s : ∀ w d2, lookupD s2 w = some d2 →
      w ≠ x ∧ ∃ d1, lookupD s w = some d1 ∧ d2 ⊆ d1 := by
    intro w d2 h2
    have hwx : w ≠ x := hs2ne w (by rw [h2]; rfl)
    obtain ⟨d1, hd1, hsub⟩ := hmono w d2 h2
    rw [hs1lookup w, if_neg hwx] at hd1
    exact ⟨hwx, d1, hd1, hsub⟩
  have hsetl : ∀ w, lookupD (setD a x value) w
      = if w = x then some value else lookupD a w :=
    fun w => lookupD_setD a x w value
  refine ⟨?_, ?_, ?_, ?_, ?_, ?_, ?_, ?_, ?_, ?_, ?_⟩
  · rw [keysD_setD_fresh a x value hax, List.nodup_append]
    refine ⟨hInv.aNodup, List.nodup_singleton x, ?_⟩
    intro y hy hyx
    rw [List.mem_singleton] at hyx
    subst hyx
    exact not_mem_keysD_of_lookup_none a y hax hy
  · rw [hkeys2, keysD_eraseD]
    exact hInv.sNodup.filter _
  · intro v hv
    rcases hInv.cover v hv with hva | hvs
    · left
      rw [hsetl v]
      by_cases hvx : v = x
      · rw [if_pos hvx]; rfl
      · rw [if_neg hvx]; exact hva
    · by_cases hvx : v = x
      · left
        rw [hsetl v, if_pos hvx]
        rfl
      · right
        rw [hs2some v, hs1lookup v, if_neg hvx]
        exact hvs
  · intro v hv
    rw [hsetl v] at hv
    by_cases hvx : v = x
    · rw [hvx]
      exact hInv.sSub x hxs
    · rw [if_neg hvx] at hv
      exact hInv.aSub v hv
  · intro v hv
    rw [hs2some v, hs1lookup v] at hv
    by_cases hvx : v = x
    · rw [if_pos hvx] at hv
      cases hv
    · rw [if_neg hvx] at hv
      exact hInv.sSub v hv
  · intro v hva hvs
    have hvx : v ≠ x := hs2ne v hvs
    rw [hsetl v, if_neg hvx] at hva
    rw [hs2some v, hs1lookup v, if_neg hvx] at hvs
    exact hInv.disj v hva hvs
  · intro v val hv
    rw [hsetl v] at hv
    by_cases hvx : v = x
    · rw [if_pos hvx] at hv
      injection hv with hval
      rw [hvx, ← hval]
      exact hInv.sDom x dx hx hvdx
    · rw [if_neg hvx] at hv
      exact hInv.aDom v val hv
  · intro v d hd
    obtain ⟨hvx, d1, hd1, hsub⟩ := hs2s v d hd
    exact hsub.trans (hInv.sDom v d1 hd1)
  · intro b hbq xv yv hla hlb
    have hd := hdist b hbq
    rw [hsetl b.va] at hla
    rw [hsetl b.vb] at hlb
    by_cases hvax : b.va = x
    · by_cases hvbx : b.vb = x
      · exact absurd (hvax.trans hvbx.symm) hd
      · rw [if_pos hvax] at hla
        rw [if_neg hvbx] at hlb
        injection hla with hxv
        have hfr := hInv.bFrontB b hbq yv dx hlb (by rw [hvax]; exact hx)
        rw [← hxv]
        exact hfr value hvdx
    · by_cases hvbx : b.vb = x
      · rw [if_neg hvax] at hla
        rw [if_pos hvbx] at hlb
        injection hlb with hyv
        have hfr := hInv.bFrontA b hbq xv dx hla (by rw [hvbx]; exact hx)
        rw [← hyv]
        exact hfr value hvdx
      · rw [if_neg hvax] at hla
        rw [if_neg hvbx] at hlb
        exact hInv.bBoth b hbq xv yv hla hlb
  · intro b hbq xv d2 hla hlsb
    obtain ⟨hvbx, d1, hd1, hsub⟩ := hs2s b.vb d2 hlsb
    rw [hsetl b.va] at hla
    by_cases hvax : b.va = x
    · rw [if_pos hvax] at hla
      injection hla with hxv
      have hnb : neighborOf b x = b.vb := by
        rw [neighborOf, if_neg hvbx]
      have hsat := fcList_true_sat x value q.constraints (eraseD s x) hfc1 b hbq
        (Or.inl hvax.symm) d2 (by
          rw [show (fcList x value q.constraints (eraseD s x)).2
            = (forward_checking q x value (eraseD s x)).2 from rfl, hfc2, hnb]
          exact hlsb)
      intro y hy
      have hh := hsat y hy
      rw [hnb, fcEval_cond_left b x value y hvax.symm hvbx] at hh
      rw [← hxv]
      exact hh
    · rw [if_neg hvax] at hla
      exact fun y hy => hInv.bFrontA b hbq xv d1 hla hd1 y (hsub hy)
  · intro b hbq yv d2 hlb hlsa
    obtain ⟨hvax, d1, hd1, hsub⟩ := hs2s b.va d2 hlsa
    rw [hsetl b.vb] at hlb
    by_cases hvbx : b.vb = x
    · rw [if_pos hvbx] at hlb
      injection hlb with hyv
      have hnb : neighborOf b x = b.va := by
        rw [neighborOf, if_pos hvbx]
      have hsat := fcList_true_sat x value q.constraints (eraseD s x) hfc1 b hbq
        (Or.inr hvbx.symm) d2 (by
          rw [show (fcList x value q.constraints (eraseD s x)).2
            = (forward_checking q x value (eraseD s x)).2 from rfl, hfc2, hnb]
          exact hlsa)
      intro z hz
      have hh := hsat z hz
      rw [hnb, fcEval_cond_right b x value z hvbx.symm hvax] at hh
      rw [← hyv]
      exact hh
    · rw [if_neg hvbx] at hlb
      exact fun z hz => hInv.bFrontB b hbq yv d1 hlb hd1 z (hsub hz)

theorem inv_complete (p q : Problem) (hq : q = (one_consistency p).2)
    (hWF : WellFormed p) (a : Assignment) (s : Snapshot) (hInv : Inv p q a s)
    (hcomp : is_complete q a = true) :
    (keysD a).Nodup ∧ (∀ v ∈ p.vars, (lookupD a v).isSome = true) ∧
    (∀ v, (lookupD a v).isSome = true → v ∈ p.vars) ∧
    (∀ c ∈ p.constraints, satisfiedBy a c) := by
  have hvars : q.vars = p.vars := by rw [hq]; exact oc_vars_eq p
  have hcov : ∀ v ∈ p.vars, (lookupD a v).isSome = true := by
    intro v hv
    rw [is_complete, List.all_eq_true] at hcomp
    exact hcomp v (by rw [hvars]; exact hv)
  refine ⟨hInv.aNodup, hcov, hInv.aSub, ?_⟩
  intro c hc
  cases c with
  | unary u =>
    have humem : u.var ∈ p.vars := (hWF.2 _ hc).1 u rfl
    obtain ⟨val, hval⟩ := Option.isSome_iff_exists.mp (hcov u.var humem)
    refine ⟨val, hval, ?_⟩
    have hdom := hInv.aDom u.var val hval
    rw [hq, oc_domains_eq] at hdom
    exact unaryCondsB_extract p.constraints u.var val
      (Finset.mem_filter.mp hdom).2 u hc rfl
  | binary b =>
    have hwf := (hWF.2 _ hc).2 b rfl
    obtain ⟨xv, hxv⟩ := Option.isSome_iff_exists.mp (hcov b.va hwf.1)
    obtain ⟨yv, hyv⟩ := Option.isSome_iff_exists.mp (hcov b.vb hwf.2.1)
    refine ⟨xv, yv, hxv, hyv, ?_⟩
    have hbq : Constraint.binary b ∈ q.constraints := by
      rw [hq]
      exact oc_binary_mem p b hc
    exact hInv.bBoth b hbq xv yv hxv hyv

theorem backtrack_sound (p q : Problem) (hq : q = (one_consistency p).2)
    (hWF : WellFormed p) :
    ∀ fuel a s r, Inv p q a s → backtrack q fuel a s = some r →
      (keysD r).Nodup ∧ (∀ v ∈ p.vars, (lookupD r v).isSome = true) ∧
      (∀ v, (lookupD r v).isSome = true → v ∈ p.vars) ∧
      (∀ c ∈ p.constraints, satisfiedBy r c) := by
  have hdist : ∀ b, Constraint.binary b ∈ q.constraints → b.va ≠ b.vb := by
    intro b hb
    rw [hq] at hb
    exact oc_binary_distinct p hWF b hb
  intro fuel
  induction fuel with
  | zero =>
    intro a s r _ hbt
    cases hbt
  | succ fuel ih =>
    intro a s r hInv hbt
    rw [backtrack] at hbt
    by_cases hcomp : is_complete q a = true
    · rw [if_pos hcomp] at hbt
      injection hbt with hr
      rw [← hr]
      exact inv_complete p q hq hWF a s hInv hcomp
    · rw [if_neg hcomp] at hbt
      revert hbt
      generalize minimum_remaining_values q s = x
      generalize hlrv : least_restraining_values q x s = vals
      intro hbt
      have hvals : ∀ v ∈ vals, ∃ d, lookupD s x = some d ∧ v ∈ d := by
        intro v hv
        rw [← hlrv] at hv
        exact lrv_mem_lookup q x s v hv
      clear hlrv
      revert hbt hvals
      induction vals generalizing r with
      | nil =>
        intro hbt _
        cases hbt
      | cons value rest ihv =>
        intro hbt hvals
        rw [tryValues] at hbt
        split at hbt
        · -- forward checking succeeded
          split at hbt
          · -- the recursive call returned a solution
            next r0 heq =>
            injection hbt with hr0
            obtain ⟨d, hxd, hvd⟩ := hvals value (List.mem_cons_self _ _)
            have hfc := (Prod.mk.eta
              (p := forward_checking q x value (eraseD s x))).symm
            rw [show ((forward_checking q x value (eraseD s x)).1 = true)
              from by assumption] at hfc
            have hInv2 := inv_step p q hdist a s hInv x d hxd value hvd _ hfc
            rw [← hr0]
            exact ih (setD a x value) _ r0 hInv2 heq
          · exact ihv r hbt (fun v hv => hvals v (List.mem_cons_of_mem _ hv))
        · exact ihv r hbt (fun v hv => hvals v (List.mem_cons_of_mem _ hv))

theorem scenario1_wellFormed : WellFormed scenario1 := by
  constructor
  · decide
  · intro c hc
    rw [show scenario1.constraints
      = [Constraint.binary ⟨"X", "Y", fun a b => decide (a ≠ b)⟩] from rfl,
      List.mem_singleton] at hc
    subst hc
    constructor
    · intro u hu
      exact Constraint.noConfusion hu
    · intro b hb
      injection hb with hb2
      rw [← hb2]
      exact ⟨by decide, by decide, by decide⟩

/-- C1, soundness of `solve`: on a well-formed problem, any returned
assignment binds each declared variable exactly once (its key list has no
duplicate, every declared variable has a value, and only declared
variables are bound), and every constraint of the original problem — each
unary constraint as given before preprocessing removed it, and each
binary constraint — evaluates to true under it. -/
theorem solve_sound (p : Problem) (r : Assignment) (hWF : WellFormed p)
    (h : solve p = some r) :
    (keysD r).Nodup ∧ (∀ v ∈ p.vars, (lookupD r v).isSome = true) ∧
    (∀ v, (lookupD r v).isSome = true → v ∈ p.vars) ∧
    (∀ c ∈ p.constraints, satisfiedBy r c) := by
  rw [solve] at h
  by_cases hoc : (one_consistency p).1 = true
  · rw [if_pos hoc] at h
    exact backtrack_sound p (one_consistency p).2 rfl hWF _ [] _ r
      (inv_root p (one_consistency p).2 rfl hWF) h
  · rw [if_neg hoc] at h
    cases h

/-- Witness for C1 on scenario 1. -/
theorem solve_sound_witness :
    solve scenario1 = some [("X", 0), ("Y", 1)] ∧
    (keysD [(("X" : Var), (0 : Val)), ("Y", 1)]).Nodup :=
  ⟨by decide,
    (solve_sound scenario1 [("X", 0), ("Y", 1)] scenario1_wellFormed
      (by decide)).1⟩

theorem reaches_inv (p : Problem) (hWF : WellFormed p) :
    ∀ a s, Reaches p a s → Inv p (one_consistency p).2 a s := by
  intro a s h
  induction h with
  | root h1 => exact inv_root p (one_consistency p).2 rfl hWF
  | step a s value s2 hre hcomp hv hfc ihr =>
    obtain ⟨d, hxd, hvd⟩ := lrv_mem_lookup (one_consistency p).2
      (minimum_remaining_values (one_consistency p).2 s) s value hv
    exact inv_step p (one_consistency p).2
      (fun b hb => oc_binary_distinct p hWF b hb) a s ihr _ d hxd value hvd
      s2 hfc

/-- C8: at every `backtrack` invocation reachable from `solve` on a
well-formed problem — the root call after successful preprocessing, and
every recursive call on a forward-checking-approved value — the keys of
the assignment and the keys of the snapshot are disjoint, and together
they are exactly the problem's declared variables. -/
theorem backtrack_partition_invariant (p : Problem) (a : Assignment)
    (s : Snapshot) (hWF : WellFormed p) (h : Reaches p a s) :
    (∀ v, ¬((lookupD a v).isSome = true ∧ (lookupD s v).isSome = true)) ∧
    (∀ v, v ∈ p.vars ↔
      ((lookupD a v).isSome = true ∨ (lookupD s v).isSome = true)) := by
  have hInv := reaches_inv p hWF a s h
  constructor
  · intro v hcon
    exact hInv.disj v hcon.1 hcon.2
  · intro v
    constructor
    · exact hInv.cover v
    · intro hc
      rcases hc with hc | hc
      · exact hInv.aSub v hc
      · exact hInv.sSub v hc

/-- Witness for C8 at the root invocation on scenario 1. -/
theorem backtrack_partition_invariant_witness :
    ("X" ∈ scenario1.vars ↔
      ((lookupD ([] : Assignment) "X").isSome = true ∨
        (lookupD (initSnapshot (one_consistency scenario1).2) "X").isSome
          = true)) :=
  (backtrack_partition_invariant scenario1 []
    (initSnapshot (one_consistency scenario1).2) scenario1_wellFormed
    (Reaches.root (by decide))).2 "X"

end CSPSolver
